import Mathlib

/-!
Verification of the PII reduxer (src/reduxer.py).

The program is embedded shallowly: Python strings become `List Char`,
Python `str.replace(old, new, 1)` becomes `replaceFirst`, `str.replace(old, new)`
becomes `replaceAll`, `in` becomes `containsSub`, `collections.Counter` becomes a
function `List Char → Nat` updated pointwise, and the insertion-ordered Python
`dict` becomes an association list with `dictInsert` (updating an existing key in
place, appending a new key at the end).  The two external engines — Python's
`re.finditer` and the spaCy pipeline — are black-box oracles, passed in as
function parameters: `finditer : pattern → text → list of match texts` (in
left-to-right order, as `re.finditer` yields them) and `nlpEnts` / `nlpTokens`
returning spaCy's entity spans `(text, label)` and tokens `(text, pos)`.
-/

/-- Strings of the program, as lists of characters. -/
abbrev Str := List Char

/-- Coerce a Lean string literal to a program string. -/
def str (s : String) : Str := s.data

/-- Python's substring test `pat in s`.  The empty pattern is contained in
every string, as in Python. -/
def containsSub : Str → Str → Bool
  | [], pat => pat.isPrefixOf []
  | c :: cs, pat => pat.isPrefixOf (c :: cs) || containsSub cs pat

/-- Python's `s.replace(pat, repl, 1)`: replace the first (leftmost) occurrence
of `pat` in `s` by `repl`; if `pat` does not occur, return `s` unchanged.
With `pat = ""` Python inserts `repl` in front, which the first branch and the
prefix test reproduce. -/
def replaceFirst : Str → Str → Str → Str
  | [], pat, repl => if pat = [] then repl else []
  | c :: cs, pat, repl =>
    if pat.isPrefixOf (c :: cs) then repl ++ (c :: cs).drop pat.length
    else c :: replaceFirst cs pat repl

/-- Helper for Python's `s.replace("", repl)`: the replacement is inserted
before every character and at the end. -/
def interleave (repl : Str) : Str → Str
  | [] => repl
  | c :: cs => repl ++ c :: interleave repl cs

/-- Fuel-indexed worker for `replaceAll`; the fuel dominates the length of the
string so the recursion is structural (and therefore kernel-reducible).
Intended for nonempty patterns: after a match at the head, `pat.length - 1`
further characters of the tail are skipped. -/
def replaceAllAux (pat repl : Str) : Nat → Str → Str
  | _, [] => []
  | 0, s => s
  | fuel + 1, c :: cs =>
    if pat.isPrefixOf (c :: cs) then repl ++ replaceAllAux pat repl fuel (cs.drop (pat.length - 1))
    else c :: replaceAllAux pat repl fuel cs

/-- Python's `s.replace(pat, repl)`: replace every occurrence of `pat` in `s`
by `repl`, scanning left to right without overlap.  The empty pattern follows
Python's interleaving behaviour. -/
def replaceAll (s pat repl : Str) : Str :=
  if pat = [] then interleave repl s else replaceAllAux pat repl s.length s

/-- Decimal digit character, as produced by Python's `str(int)`. -/
def digitChar : Nat → Char
  | 0 => '0' | 1 => '1' | 2 => '2' | 3 => '3' | 4 => '4'
  | 5 => '5' | 6 => '6' | 7 => '7' | 8 => '8' | _ => '9'

/-- Fuel-indexed decimal rendering worker (structural, kernel-reducible). -/
def natStrAux : Nat → Nat → Str
  | 0, _ => []
  | fuel + 1, n =>
    if n < 10 then [digitChar n]
    else natStrAux fuel (n / 10) ++ [digitChar (n % 10)]

/-- Python's `str(n)` for a natural number: decimal notation. -/
def natStr (n : Nat) : Str := natStrAux (n + 1) n

/-- One `collections.Counter` update: `counters[k] += 1`. -/
def bump (c : Str → Nat) (k : Str) : Str → Nat :=
  fun x => if x = k then c k + 1 else c x

/-- Python dict assignment `d[k] = v` on an insertion-ordered association
list: an existing key keeps its position and its value is overwritten; a new
key is appended at the end. -/
def dictInsert (d : List (Str × Str)) (k v : Str) : List (Str × Str) :=
  if (d.map Prod.fst).contains k then
    d.map (fun e => if e.1 = k then (k, v) else e)
  else d ++ [(k, v)]

/-- Value lookup in the association-list dict (first entry with the key). -/
def findVal (d : List (Str × Str)) (k : Str) : Option Str :=
  (d.find? (fun e => e.1 == k)).map Prod.snd

/-- Number of positions of `s` at which `pat` occurs (occurrences may
overlap); used only to state duplicate-freedom hypotheses. -/
def occurrencesCount (s pat : Str) : Nat :=
  ((List.range (s.length + 1)).filter (fun i => pat.isPrefixOf (s.drop i))).length

/-- The loop state of `anonymize_text_including_proper_nouns_and_addresses`:
the working text, the lookup table, and the shared `Counter`. -/
structure AnonState where
  anonymized : Str
  lookup : List (Str × Str)
  counters : Str → Nat

/-- Inner loop of the regex pass: `for match in re.finditer(pattern, text)`,
already applied to the match-text list the regex engine yields.  Each match
increments the type's counter, synthesizes `placeholder + counter` (plain
concatenation, no separator), replaces the first remaining occurrence of the
matched original in the working text, and records placeholder → original. -/
def rxMatchLoop (ty ph : Str) : List Str → AnonState → AnonState
  | [], st => st
  | original :: ms, st =>
    let counters := bump st.counters ty
    let pwc := ph ++ natStr (counters ty)
    rxMatchLoop ty ph ms
      { anonymized := replaceFirst st.anonymized original pwc
        lookup := dictInsert st.lookup pwc original
        counters := counters }

/-- Outer loop of the regex pass: `for pii_type, (pattern, placeholder) in
pii_config.items()`.  Note that `finditer` is always applied to the pristine
`text` argument, never to the working text. -/
def rxLoop (finditer : Str → Str → List Str) (text : Str) :
    List (Str × Str × Str) → AnonState → AnonState
  | [], st => st
  | (ty, pat, ph) :: rest, st =>
    rxLoop finditer text rest (rxMatchLoop ty ph (finditer pat text) st)

/-- The tokens kept by `[token for token in doc if token.pos_ == "PROPN"]`,
labelled `PROPN` as the entity loop does for token candidates. -/
def propnCands (tokens : List (Str × Str)) : List (Str × Str) :=
  (tokens.filter (fun t => t.2 = str "PROPN")).map (fun t => (t.1, str "PROPN"))

/-- Stable insertion step for the longest-first sort. -/
def insertCand (x : Str × Str) : List (Str × Str) → List (Str × Str)
  | [] => [x]
  | y :: ys => if y.1.length ≤ x.1.length then x :: y :: ys else y :: insertCand x ys

/-- Python's `sorted(candidates, key=lambda x: -len(x.text))`: stable sort by
descending text length (insertion sort is stable, and a stable sort by a key
is unique, so this is the same ordering `sorted` produces). -/
def sortCands : List (Str × Str) → List (Str × Str)
  | [] => []
  | x :: xs => insertCand x (sortCands xs)

/-- The allowed entity labels of the entity/proper-noun pass. -/
def allowedLabels : List Str :=
  [str "ORG", str "PERSON", str "GPE", str "LOC", str "FAC", str "PROPN"]

/-- Entity/proper-noun loop: for each sorted candidate with an allowed label,
the label's counter is incremented and the bracketed placeholder is formed
BEFORE the presence check; only if the candidate text still occurs in the
working text is it replaced and recorded (mirroring lines 41–55 of the
source, where `counters[label] += 1` precedes `if original in
anonymized_text`). -/
def entLoop : List (Str × Str) → AnonState → AnonState
  | [], st => st
  | (otext, label) :: rest, st =>
    if label ∈ allowedLabels then
      let counters := bump st.counters label
      let pwc := '[' :: (label ++ natStr (counters label) ++ [']'])
      if containsSub st.anonymized otext then
        entLoop rest
          { anonymized := replaceFirst st.anonymized otext pwc
            lookup := dictInsert st.lookup pwc otext
            counters := counters }
      else entLoop rest { st with counters := counters }
    else entLoop rest st

/-- `anonymize_text_including_proper_nouns_and_addresses(text, pii_config)`:
the regex pass over the config, then the spaCy oracle applied to the
partially redacted text, then the longest-first entity/proper-noun pass.
Returns the final text and the merged lookup table. -/
def anonymize (finditer : Str → Str → List Str)
    (nlpEnts nlpTokens : Str → List (Str × Str))
    (text : Str) (pii_config : List (Str × Str × Str)) : Str × List (Str × Str) :=
  let st1 := rxLoop finditer text pii_config ⟨text, [], fun _ => 0⟩
  let cands := sortCands (nlpEnts st1.anonymized ++ propnCands (nlpTokens st1.anonymized))
  let st2 := entLoop cands st1
  (st2.anonymized, st2.lookup)

/-- `deanonymize_text(lookup_table, anonymized_text)`: for each
(placeholder, original) pair in table order, replace every occurrence of the
placeholder by the original. -/
def deanonymize : List (Str × Str) → Str → Str
  | [], t => t
  | (p, o) :: rest, t => deanonymize rest (replaceAll t p o)

/-- The phone-number regex pattern string of the source's `pii_config`. -/
def phonePattern : Str := str "\\b\\d\x7b3\x7d[-.\\s]?\\d\x7b3\x7d[-.\\s]?\\d\x7b4\x7d\\b"

/-- The email regex pattern string of the source's `pii_config`. -/
def emailPattern : Str := str "\\b[A-Za-z0-9._%+-]+@[A-Za-z0-9.-]+\\.[A-Z|a-z]\x7b2,\x7d\\b"

/-- The SSN regex pattern string of the source's `pii_config`. -/
def ssnPattern : Str := str "\\b\\d\x7b3\x7d-\\d\x7b2\x7d-\\d\x7b4\x7d\\b"

/-- The website regex pattern string of the source's `pii_config`. -/
def websitePattern : Str := str "\\b(?:http://|https://)?(?:www\\.)?[a-zA-Z0-9./]+\\.[a-z]\x7b2,\x7d\\b"

/-- The module-level `pii_config` of the source, with its four regex patterns
(kept verbatim as pattern strings; the regex engine itself is the oracle). -/
def pii_config : List (Str × Str × Str) :=
  [ (str "phone_number", phonePattern, str "[PHONE]")
  , (str "text_address", emailPattern, str "[EMAIL]")
  , (str "social_security_number", ssnPattern, str "[SSN]")
  , (str "website", websitePattern, str "[WEBSITE]")
  ]

/-! ## Decimal rendering: correctness and injectivity -/

/-- Numeric value of a decimal digit character. -/
def digitVal (c : Char) : Nat := c.toNat - 48

/-- Decimal decoding of a digit string. -/
def decodeDigits (s : Str) : Nat := s.foldl (fun a c => a * 10 + digitVal c) 0

/-! ## Chunked texts

A working text of the anonymizer is viewed as a list of chunks: original
characters (never `[`), and intact placeholder occurrences carrying the
original substring they replaced.  `render` is the text as the program sees
it; `undoChunks` is the text with every placeholder replaced back by its
original. -/

/-- One chunk of a working text. -/
inductive Chunk
  | ch (c : Char)
  | ph (p : Str) (o : Str)
deriving DecidableEq

/-- The working text a chunk list denotes. -/
def render : List Chunk → Str
  | [] => []
  | Chunk.ch c :: cs => c :: render cs
  | Chunk.ph p _ :: cs => p ++ render cs

/-- The fully restored text a chunk list denotes. -/
def undoChunks : List Chunk → Str
  | [] => []
  | Chunk.ch c :: cs => c :: undoChunks cs
  | Chunk.ph _ o :: cs => o ++ undoChunks cs

@[simp] theorem render_nil : render [] = [] := rfl

@[simp] theorem render_cons_ch (c : Char) (cs : List Chunk) :
    render (Chunk.ch c :: cs) = c :: render cs := rfl

@[simp] theorem render_cons_ph (p o : Str) (cs : List Chunk) :
    render (Chunk.ph p o :: cs) = p ++ render cs := rfl

@[simp] theorem undoChunks_nil : undoChunks [] = [] := rfl

@[simp] theorem undoChunks_cons_ch (c : Char) (cs : List Chunk) :
    undoChunks (Chunk.ch c :: cs) = c :: undoChunks cs := rfl

@[simp] theorem undoChunks_cons_ph (p o : Str) (cs : List Chunk) :
    undoChunks (Chunk.ph p o :: cs) = o ++ undoChunks cs := rfl

/-! ## Well-formedness of a replacement-pair list

`E` collects every (placeholder, original) pair a run synthesizes.  The
conditions below make placeholders identifiable in any working text:
placeholders start with `[` and contain no further `[`; originals are
nonempty and `[`-free; distinct placeholders are never prefixes of one
another; and no original may start inside any placeholder (`cleanFor`). -/

/-- The placeholder starts with `[` and contains no other `[`. -/
def bracketHeaded (p : Str) : Bool :=
  match p with
  | c :: t => c == '[' && !(t.contains '[')
  | [] => false

/-- Neither string is a prefix of the other. -/
def nonOverlapping (a b : Str) : Bool := !(a.isPrefixOf b) && !(b.isPrefixOf a)

/-- No occurrence of the original `o` can start strictly inside the
placeholder `q`: for every positive offset `j`, the suffix `q.drop j` is
neither a prefix of `o` nor an extension of it. -/
def cleanFor (o q : Str) : Bool :=
  (List.range q.length).all
    (fun j => (j == 0) || ((!((q.drop j).isPrefixOf o)) && !(o.isPrefixOf (q.drop j))))

/-- Conditions on a single (placeholder, original) pair. -/
def pairOK (e : Str × Str) : Bool :=
  bracketHeaded e.1 && !(e.2.isEmpty) && !(e.2.contains '[')

/-- Pairwise prefix-freedom of the placeholders. -/
def pairwiseNonOverlap : List (Str × Str) → Bool
  | [] => true
  | e :: rest => rest.all (fun e2 => nonOverlapping e.1 e2.1) && pairwiseNonOverlap rest

/-- All well-formedness conditions of a pair list together. -/
def pairsOK (E : List (Str × Str)) : Bool :=
  E.all pairOK && pairwiseNonOverlap E &&
    E.all (fun e => E.all (fun e2 => cleanFor e.2 e2.1))

/-- Well-formedness of a chunk: characters are never `[`, placeholders carry
a recorded pair. -/
def chunkOK (E : List (Str × Str)) : Chunk → Prop
  | Chunk.ch c => c ≠ '['
  | Chunk.ph p o => (p, o) ∈ E

/-- Well-formedness of a chunk list. -/
def ChunksOK (E : List (Str × Str)) (cs : List Chunk) : Prop :=
  ∀ c ∈ cs, chunkOK E c

/-- Replace every placeholder chunk carrying placeholder `p` by the character
chunks of `o` (the effect of `replaceAll · p o` on a well-formed text). -/
def replacePh (p o : Str) : List Chunk → List Chunk
  | [] => []
  | Chunk.ch c :: cs => Chunk.ch c :: replacePh p o cs
  | Chunk.ph q r :: cs =>
    (if q = p then o.map Chunk.ch else [Chunk.ph q r]) ++ replacePh p o cs

/-! ## The (placeholder, original) pairs a run synthesizes

These definitions replay only the counter bookkeeping of the two passes (the
counter is incremented for every regex match and for every allowed-label
candidate, independently of any replacement), so the pair list is computable
from the oracles' outputs alone. -/

/-- Pairs synthesized by one regex type's match list, threading the counter. -/
def rxPairsMatches (ty ph : Str) : List Str → (Str → Nat) → List (Str × Str) × (Str → Nat)
  | [], ctr => ([], ctr)
  | o :: ms, ctr =>
    let ctr' := bump ctr ty
    let res := rxPairsMatches ty ph ms ctr'
    ((ph ++ natStr (ctr' ty), o) :: res.1, res.2)

/-- Pairs synthesized by the whole regex pass. -/
def rxPairs (fd : Str → Str → List Str) (text : Str) :
    List (Str × Str × Str) → (Str → Nat) → List (Str × Str) × (Str → Nat)
  | [], ctr => ([], ctr)
  | (ty, pat, ph) :: rest, ctr =>
    let res1 := rxPairsMatches ty ph (fd pat text) ctr
    let res2 := rxPairs fd text rest res1.2
    (res1.1 ++ res2.1, res2.2)

/-- Pairs synthesized by the entity pass (allowed labels only; the counter is
bumped whether or not the candidate is still present, exactly as the loop
does). -/
def entPairs : List (Str × Str) → (Str → Nat) → List (Str × Str) × (Str → Nat)
  | [], ctr => ([], ctr)
  | (otext, label) :: rest, ctr =>
    if label ∈ allowedLabels then
      let ctr' := bump ctr label
      let res := entPairs rest ctr'
      (('[' :: (label ++ natStr (ctr' label) ++ [']']), otext) :: res.1, res.2)
    else entPairs rest ctr

/-- All (placeholder, original) pairs synthesized by a full `anonymize` run. -/
def runPairs (fd : Str → Str → List Str) (nE nT : Str → List (Str × Str))
    (text : Str) (cfg : List (Str × Str × Str)) : List (Str × Str) :=
  (rxPairs fd text cfg (fun _ => 0)).1 ++
    (entPairs
      (sortCands (nE (rxLoop fd text cfg ⟨text, [], fun _ => 0⟩).anonymized ++
        propnCands (nT (rxLoop fd text cfg ⟨text, [], fun _ => 0⟩).anonymized)))
      ((rxPairs fd text cfg (fun _ => 0)).2)).1

/-! ## Invariant of the anonymizer state -/

/-- The anonymizer state is faithfully represented by a chunk list: the
working text renders it, all chunks are well-formed, the lookup table records
only synthesized pairs, and every placeholder chunk is covered by a table
key. -/
def StOK (E : List (Str × Str)) (st : AnonState) (cs : List Chunk) : Prop :=
  st.anonymized = render cs ∧ ChunksOK E cs ∧ (∀ e ∈ st.lookup, e ∈ E) ∧
    (∀ q r, Chunk.ph q r ∈ cs → q ∈ st.lookup.map Prod.fst)

/-! ## Flattened description of the regex pass (for the pass-semantics claim) -/

/-- One regex-pass replacement step, as the spec describes it: bump the
type's counter, build `placeholder + counter`, replace the first remaining
occurrence in the working text, record the pair. -/
def rxStep (st : AnonState) : Str × Str × Str → AnonState
  | (ty, original, ph) =>
    { anonymized := replaceFirst st.anonymized original (ph ++ natStr ((bump st.counters ty) ty))
      lookup := dictInsert st.lookup (ph ++ natStr ((bump st.counters ty) ty)) original
      counters := bump st.counters ty }

/-- The regex pass's work list: config entries in insertion order, and for
each entry that type's matches against the pristine input text in the order
the regex engine yields them. -/
def rxFlat (fd : Str → Str → List Str) (text : Str)
    (cfg : List (Str × Str × Str)) : List (Str × Str × Str) :=
  cfg.flatMap (fun e => (fd e.2.1 text).map (fun m => (e.1, m, e.2.2)))

/-! ## Concrete oracle instantiations used by the claim scenarios

Each `finditer` oracle below returns, for the pattern strings it is queried
with, exactly the match lists Python's `re.finditer` produces on the given
text; each NLP oracle returns a fixed extraction, which is an admissible
behaviour of the black-box spaCy pipeline. -/

/-- An NLP oracle returning no entities or tokens. -/
def noNlp : Str → List (Str × Str) := fun _ => []

/-- A regex oracle with no matches. -/
def noMatches : Str → Str → List Str := fun _ _ => []

/-- Text for the round-trip witness and the regex-precedence scenario. -/
def exWtext : Str := str "Reach a@b.com now"

/-- `re.finditer` on `exWtext`: the email pattern matches `a@b.com`; the
website pattern (scanned against the pristine original) matches `b.com`
inside the email; the phone and SSN patterns match nothing. -/
def exWfinditer : Str → Str → List Str := fun pat t =>
  if pat = emailPattern ∧ t = exWtext then [str "a@b.com"]
  else if pat = websitePattern ∧ t = exWtext then [str "b.com"]
  else []

/-- Text for the round-trip counterexample. -/
def exCtext : Str := str "411-555-1234 1 1"

/-- A two-type configuration: the source's phone pattern and a pattern
matching the literal text `1 1`. -/
def exCcfg : List (Str × Str × Str) :=
  [ (str "phone_number", phonePattern, str "[PHONE]")
  , (str "ones", str "1 1", str "[ONES]") ]

/-- `re.finditer` on `exCtext`: the phone pattern matches the number once;
the pattern `1 1` matches once (at the trailing `1 1`). -/
def exCfinditer : Str → Str → List Str := fun pat t =>
  if pat = phonePattern ∧ t = exCtext then [str "411-555-1234"]
  else if pat = str "1 1" ∧ t = exCtext then [str "1 1"]
  else []

/-- Text for the entity-skip counterexample. -/
def exSkipText : Str := str "Bob Smith met Al"

/-- spaCy entities for `exSkipText`: three PERSON spans, where `Bob` only
occurs inside `Bob Smith`. -/
def exSkipEnts : Str → List (Str × Str) := fun s =>
  if s = exSkipText then
    [(str "Bob Smith", str "PERSON"), (str "Bob", str "PERSON"), (str "Al", str "PERSON")]
  else []

/-- Text for the longest-first scenario (from the source's own demo text). -/
def exPaulText : Str := str "Sincerely, Paul Haggerty"

/-- spaCy entities for `exPaulText`: the full name as one PERSON span. -/
def exPaulEnts : Str → List (Str × Str) := fun s =>
  if s = exPaulText then [(str "Paul Haggerty", str "PERSON")] else []

/-- spaCy PROPN tokens for `exPaulText`: the two name tokens. -/
def exPaulTokens : Str → List (Str × Str) := fun s =>
  if s = exPaulText then [(str "Paul", str "PROPN"), (str "Haggerty", str "PROPN")] else []

/-- Text for the lookup-collision counterexample. -/
def exColText : Str := str "aaa bbb"

/-- Two config entries sharing the placeholder prefix `[X]`, with literal
regex patterns. -/
def exColCfg : List (Str × Str × Str) :=
  [ (str "t1", str "aaa", str "[X]"), (str "t2", str "bbb", str "[X]") ]

/-- `re.finditer` on `exColText`: the literal pattern `aaa` matches once, the
literal pattern `bbb` matches once. -/
def exColFd : Str → Str → List Str := fun pat t =>
  if pat = str "aaa" ∧ t = exColText then [str "aaa"]
  else if pat = str "bbb" ∧ t = exColText then [str "bbb"]
  else []

/-- Text for the deanonymize-idempotence counterexample. -/
def exIdText : Str := str "a@b.com"

/-- One-entry configuration: the email pattern only. -/
def exIdCfg : List (Str × Str × Str) := [(str "text_address", emailPattern, str "[EMAIL]")]

/-- `re.finditer` on `exIdText`: the email pattern matches the whole text. -/
def exIdFd : Str → Str → List Str := fun pat t =>
  if pat = emailPattern ∧ t = exIdText then [str "a@b.com"] else []

/-- spaCy entities for the post-regex text `[EMAIL]1`: the placeholder token
itself is tagged as an ORG span (an admissible tagging of the synthetic
token). -/
def exIdEnts : Str → List (Str × Str) := fun s =>
  if s = str "[EMAIL]1" then [(str "[EMAIL]1", str "ORG")] else []

/-- Text with ten distinct two-letter person names. -/
def exTenText : Str := str "Aa Bb Cc Dd Ee Ff Gg Hh Ii Jj"

/-- spaCy entities for `exTenText`: ten PERSON spans in text order. -/
def exTenEnts : Str → List (Str × Str) := fun s =>
  if s = exTenText then
    [(str "Aa", str "PERSON"), (str "Bb", str "PERSON"), (str "Cc", str "PERSON"),
     (str "Dd", str "PERSON"), (str "Ee", str "PERSON"), (str "Ff", str "PERSON"),
     (str "Gg", str "PERSON"), (str "Hh", str "PERSON"), (str "Ii", str "PERSON"),
     (str "Jj", str "PERSON")]
  else []

/-! ## Basic lemmas about the string operations -/

/-- Boolean prefix test, negated form. -/
theorem isPrefixOf_eq_false_iff {l₁ l₂ : Str} :
    l₁.isPrefixOf l₂ = false ↔ ¬ l₁ <+: l₂ := by
  rw [← List.isPrefixOf_iff_prefix]
  exact Bool.eq_false_iff

/-- The fuel argument of `replaceAllAux` is irrelevant once it dominates the
string length. -/
theorem replaceAllAux_fuel (pat repl : Str) :
    ∀ f₁ f₂ s, s.length ≤ f₁ → s.length ≤ f₂ →
      replaceAllAux pat repl f₁ s = replaceAllAux pat repl f₂ s := by
  intro f₁
  induction f₁ with
  | zero =>
    intro f₂ s h₁ _
    have hs : s = [] := List.eq_nil_of_length_eq_zero (Nat.le_zero.mp h₁)
    subst hs
    cases f₂ <;> rfl
  | succ g ih =>
    intro f₂ s h₁ h₂
    cases s with
    | nil => cases f₂ <;> rfl
    | cons c cs =>
      cases f₂ with
      | zero => simp at h₂
      | succ h =>
        simp only [replaceAllAux]
        by_cases hp : pat.isPrefixOf (c :: cs) = true
        · simp only [hp, if_true]
          have hlen : (cs.drop (pat.length - 1)).length ≤ g := by
            have := List.length_drop (pat.length - 1) cs
            have hcs : cs.length ≤ g := by simpa using Nat.lt_succ_iff.mp (Nat.lt_of_lt_of_le (Nat.lt_succ_self _) (by simpa using h₁))
            omega
          have hlen2 : (cs.drop (pat.length - 1)).length ≤ h := by
            have := List.length_drop (pat.length - 1) cs
            have hcs : cs.length ≤ h := by
              have : cs.length + 1 ≤ h + 1 := by simpa using h₂
              omega
            omega
          rw [ih _ _ hlen hlen2]
        · simp only [Bool.not_eq_true] at hp
          simp only [hp, Bool.false_eq_true, if_false]
          have hcs₁ : cs.length ≤ g := by
            have : cs.length + 1 ≤ g + 1 := by simpa using h₁
            omega
          have hcs₂ : cs.length ≤ h := by
            have : cs.length + 1 ≤ h + 1 := by simpa using h₂
            omega
          rw [ih _ _ hcs₁ hcs₂]

/-- `replaceAll` on the empty string (nonempty pattern). -/
theorem replaceAll_nil {pat : Str} (hne : pat ≠ []) (r : Str) :
    replaceAll [] pat r = [] := by
  simp [replaceAll, hne, replaceAllAux]

/-- `replaceAll` when the pattern matches at the head: the match is consumed
and scanning continues past it (unbounded replacement). -/
theorem replaceAll_cons_pos {pat : Str} (hne : pat ≠ []) {c : Char} {cs : Str}
    (h : pat.isPrefixOf (c :: cs) = true) (r : Str) :
    replaceAll (c :: cs) pat r = r ++ replaceAll ((c :: cs).drop pat.length) pat r := by
  obtain ⟨p₀, pt, rfl⟩ : ∃ p₀ pt, pat = p₀ :: pt := by
    cases pat with
    | nil => exact absurd rfl hne
    | cons a b => exact ⟨a, b, rfl⟩
  have e1 : replaceAll (c :: cs) (p₀ :: pt) r
      = replaceAllAux (p₀ :: pt) r (cs.length + 1) (c :: cs) := by
    simp [replaceAll]
  have e2 : replaceAll ((c :: cs).drop (p₀ :: pt).length) (p₀ :: pt) r
      = replaceAllAux (p₀ :: pt) r (cs.drop pt.length).length (cs.drop pt.length) := by
    simp [replaceAll, List.drop_succ_cons]
  rw [e1, e2]
  have e3 : replaceAllAux (p₀ :: pt) r (cs.length + 1) (c :: cs)
      = r ++ replaceAllAux (p₀ :: pt) r cs.length (cs.drop ((p₀ :: pt).length - 1)) := by
    simp only [replaceAllAux, h, if_true]
  rw [e3]
  have e4 : (p₀ :: pt).length - 1 = pt.length := by simp
  rw [e4]
  congr 1
  have hd : (cs.drop pt.length).length ≤ cs.length := by
    rw [List.length_drop]
    omega
  exact replaceAllAux_fuel _ _ _ _ _ hd (le_refl _)

/-- `replaceAll` when the pattern does not match at the head: keep the head
character and continue. -/
theorem replaceAll_cons_neg {pat : Str} (hne : pat ≠ []) {c : Char} {cs : Str}
    (h : pat.isPrefixOf (c :: cs) = false) (r : Str) :
    replaceAll (c :: cs) pat r = c :: replaceAll cs pat r := by
  have e1 : replaceAll (c :: cs) pat r = replaceAllAux pat r (cs.length + 1) (c :: cs) := by
    simp [replaceAll, hne]
  have e2 : replaceAll cs pat r = replaceAllAux pat r cs.length cs := by
    simp [replaceAll, hne]
  have e3 : replaceAllAux pat r (cs.length + 1) (c :: cs)
      = c :: replaceAllAux pat r cs.length cs := by
    simp only [replaceAllAux, h, Bool.false_eq_true, if_false]
  rw [e1, e2, e3]

/-- The empty pattern is contained in every string. -/
theorem containsSub_nil_pat (s : Str) : containsSub s [] = true := by
  cases s <;> simp [containsSub, List.isPrefixOf]

/-- Unfolding of `containsSub` on a cons cell. -/
theorem containsSub_cons (c : Char) (cs pat : Str) :
    containsSub (c :: cs) pat = (pat.isPrefixOf (c :: cs) || containsSub cs pat) := rfl

/-- A pattern that does not occur is left alone by `replaceFirst`. -/
theorem replaceFirst_of_not_contains {s pat : Str} (h : containsSub s pat = false) (r : Str) :
    replaceFirst s pat r = s := by
  induction s with
  | nil =>
    have : pat.isPrefixOf [] = false := by simpa [containsSub] using h
    have hne : pat ≠ [] := by
      intro he; subst he; simp [List.isPrefixOf] at this
    simp [replaceFirst, hne]
  | cons c cs ih =>
    rw [containsSub_cons, Bool.or_eq_false_iff] at h
    simp [replaceFirst, h.1, ih h.2]

/-- A pattern that does not occur is left alone by `replaceAll`. -/
theorem replaceAll_of_not_contains {s pat : Str} (h : containsSub s pat = false) (r : Str) :
    replaceAll s pat r = s := by
  have hne : pat ≠ [] := by
    intro he; subst he; rw [containsSub_nil_pat] at h; cases h
  induction s with
  | nil => exact replaceAll_nil hne r
  | cons c cs ih =>
    rw [containsSub_cons, Bool.or_eq_false_iff] at h
    rw [replaceAll_cons_neg hne h.1 r, ih h.2]

/-- Case analysis for a prefix of an appended string. -/
theorem prefix_append_cases {p a b : Str} (h : p <+: a ++ b) : p <+: a ∨ a <+: p := by
  induction p generalizing a with
  | nil => exact Or.inl (List.nil_prefix)
  | cons x p' ih =>
    cases a with
    | nil => exact Or.inr (List.nil_prefix)
    | cons y a' =>
      rw [List.cons_append, List.cons_prefix_cons] at h
      obtain ⟨rfl, h'⟩ := h
      rcases ih h' with h1 | h1
      · exact Or.inl (List.cons_prefix_cons.mpr ⟨rfl, h1⟩)
      · exact Or.inr (List.cons_prefix_cons.mpr ⟨rfl, h1⟩)

/-- `replaceFirst` walks over a block in which no occurrence starts. -/
theorem replaceFirst_append (o p : Str) :
    ∀ x y, (∀ i, i < x.length → ¬ o <+: (x.drop i ++ y)) →
      replaceFirst (x ++ y) o p = x ++ replaceFirst y o p := by
  intro x
  induction x with
  | nil => intro y _; rfl
  | cons c x' ih =>
    intro y hno
    have h0 : ¬ o <+: (c :: (x' ++ y)) := by
      have := hno 0 (Nat.succ_pos _)
      simpa using this
    have hb : o.isPrefixOf (c :: (x' ++ y)) = false := isPrefixOf_eq_false_iff.mpr h0
    have hrest : ∀ i, i < x'.length → ¬ o <+: (x'.drop i ++ y) := by
      intro i hi
      have := hno (i + 1) (by simpa using Nat.succ_lt_succ hi)
      simpa using this
    have hstep : replaceFirst (c :: (x' ++ y)) o p
        = c :: replaceFirst (x' ++ y) o p := by
      have : replaceFirst (c :: (x' ++ y)) o p
          = if o.isPrefixOf (c :: (x' ++ y)) then p ++ (c :: (x' ++ y)).drop o.length
            else c :: replaceFirst (x' ++ y) o p := by
        simp only [replaceFirst]
      rw [this, hb]
      simp
    rw [List.cons_append, hstep, ih y hrest, List.cons_append]

/-- `replaceAll` walks over a block in which no occurrence starts. -/
theorem replaceAll_append {o : Str} (hne : o ≠ []) (r : Str) :
    ∀ x y, (∀ i, i < x.length → ¬ o <+: (x.drop i ++ y)) →
      replaceAll (x ++ y) o r = x ++ replaceAll y o r := by
  intro x
  induction x with
  | nil => intro y _; rfl
  | cons c x' ih =>
    intro y hno
    have h0 : ¬ o <+: (c :: (x' ++ y)) := by
      have := hno 0 (Nat.succ_pos _)
      simpa using this
    have hb : o.isPrefixOf (c :: (x' ++ y)) = false := isPrefixOf_eq_false_iff.mpr h0
    have hrest : ∀ i, i < x'.length → ¬ o <+: (x'.drop i ++ y) := by
      intro i hi
      have := hno (i + 1) (by simpa using Nat.succ_lt_succ hi)
      simpa using this
    rw [List.cons_append, replaceAll_cons_neg hne hb, ih y hrest, List.cons_append]

/-- `digitChar` is left-inverted by `digitVal` on digits. -/
theorem digitVal_digitChar : ∀ d, d < 10 → digitVal (digitChar d) = d := by decide

/-- Appending one digit multiplies the decoded value by ten. -/
theorem decodeDigits_append_digit (xs : Str) (c : Char) :
    decodeDigits (xs ++ [c]) = decodeDigits xs * 10 + digitVal c := by
  simp [decodeDigits, List.foldl_append]

/-- The fuel-indexed renderer is decoded back to its input. -/
theorem decodeDigits_natStrAux : ∀ fuel n, n < fuel → decodeDigits (natStrAux fuel n) = n := by
  intro fuel
  induction fuel with
  | zero => intro n h; exact absurd h (Nat.not_lt_zero n)
  | succ f ih =>
    intro n h
    by_cases h10 : n < 10
    · have e : natStrAux (f + 1) n = [digitChar n] := by simp [natStrAux, h10]
      rw [e]
      have e2 : decodeDigits [digitChar n] = digitVal (digitChar n) := by
        simp [decodeDigits]
      rw [e2, digitVal_digitChar n h10]
    · have e : natStrAux (f + 1) n = natStrAux f (n / 10) ++ [digitChar (n % 10)] := by
        simp [natStrAux, h10]
      have hdiv : n / 10 < f := by
        have h1 : n / 10 < n := Nat.div_lt_self (by omega) (by omega)
        omega
      rw [e, decodeDigits_append_digit, ih _ hdiv,
        digitVal_digitChar _ (Nat.mod_lt _ (by omega))]
      omega

/-- `natStr` is decoded back to its input. -/
theorem decodeDigits_natStr (n : Nat) : decodeDigits (natStr n) = n :=
  decodeDigits_natStrAux (n + 1) n (Nat.lt_succ_self n)

/-- Decimal rendering is injective: distinct counters give distinct suffixes. -/
theorem natStr_injective : Function.Injective natStr := by
  intro a b h
  have h2 := congrArg decodeDigits h
  rwa [decodeDigits_natStr, decodeDigits_natStr] at h2

/-- `render` of a pure-character chunk list is the underlying string. -/
theorem render_map_ch (s : Str) : render (s.map Chunk.ch) = s := by
  induction s with
  | nil => rfl
  | cons c cs ih => simp [ih]

/-- `undoChunks` of a pure-character chunk list is the underlying string. -/
theorem undoChunks_map_ch (s : Str) : undoChunks (s.map Chunk.ch) = s := by
  induction s with
  | nil => rfl
  | cons c cs ih => simp [ih]

/-- `render` distributes over chunk-list concatenation. -/
theorem render_append (a b : List Chunk) : render (a ++ b) = render a ++ render b := by
  induction a with
  | nil => rfl
  | cons ck rest ih => cases ck <;> simp [ih]

/-- `undoChunks` distributes over chunk-list concatenation. -/
theorem undoChunks_append (a b : List Chunk) :
    undoChunks (a ++ b) = undoChunks a ++ undoChunks b := by
  induction a with
  | nil => rfl
  | cons ck rest ih => cases ck <;> simp [ih]

theorem chunksOK_cons {E : List (Str × Str)} {ck : Chunk} {cs : List Chunk} :
    ChunksOK E (ck :: cs) ↔ chunkOK E ck ∧ ChunksOK E cs := by
  simp [ChunksOK]

/-! ## Unpacking the Boolean well-formedness conditions -/

/-- Boolean containment test, negated form. -/
theorem contains_eq_false_iff {l : Str} {c : Char} : l.contains c = false ↔ c ∉ l := by
  rw [Bool.eq_false_iff]
  exact not_congr List.elem_iff

/-- Boolean emptiness test, negated form. -/
theorem isEmpty_eq_false_iff {l : Str} : l.isEmpty = false ↔ l ≠ [] := by
  cases l <;> simp

/-- A recorded pair has a bracket-headed placeholder and a nonempty,
bracket-free original. -/
theorem pairsOK_mem {E : List (Str × Str)} (hE : pairsOK E = true) {p o : Str}
    (h : (p, o) ∈ E) : (∃ t, p = '[' :: t ∧ '[' ∉ t) ∧ o ≠ [] ∧ '[' ∉ o := by
  have h1 : E.all pairOK = true := by
    unfold pairsOK at hE
    simp only [Bool.and_eq_true] at hE
    exact hE.1.1
  have h2 := List.all_eq_true.mp h1 _ h
  unfold pairOK at h2
  simp only [Bool.and_eq_true, Bool.not_eq_true'] at h2
  obtain ⟨⟨hb, hne⟩, hbr⟩ := h2
  refine ⟨?_, isEmpty_eq_false_iff.mp hne, contains_eq_false_iff.mp hbr⟩
  cases p with
  | nil => simp [bracketHeaded] at hb
  | cons c t =>
    simp only [bracketHeaded, Bool.and_eq_true, beq_iff_eq, Bool.not_eq_true'] at hb
    exact ⟨t, by rw [hb.1], contains_eq_false_iff.mp hb.2⟩

/-- The pairwise component of `pairsOK`. -/
theorem pairsOK_pairwise {E : List (Str × Str)} (hE : pairsOK E = true) :
    pairwiseNonOverlap E = true := by
  unfold pairsOK at hE
  simp only [Bool.and_eq_true] at hE
  exact hE.1.2

/-- Distinct recorded placeholders are never prefixes of one another. -/
theorem pairwiseNonOverlap_mem :
    ∀ {E : List (Str × Str)}, pairwiseNonOverlap E = true →
      ∀ {p o q r : Str}, (p, o) ∈ E → (q, r) ∈ E → p ≠ q →
        ¬ p <+: q ∧ ¬ q <+: p := by
  intro E
  induction E with
  | nil => intro _ p o q r h; exact absurd h (List.not_mem_nil _)
  | cons e rest ih =>
    intro hE p o q r h1 h2 hne
    unfold pairwiseNonOverlap at hE
    simp only [Bool.and_eq_true, List.all_eq_true] at hE
    obtain ⟨hall, hrest⟩ := hE
    rcases List.mem_cons.mp h1 with he1 | he1 <;> rcases List.mem_cons.mp h2 with he2 | he2
    · exact absurd (congrArg Prod.fst (he1.trans he2.symm)) hne
    · have := hall _ he2
      rw [← he1] at this
      simp only [nonOverlapping, Bool.and_eq_true, Bool.not_eq_true'] at this
      exact ⟨isPrefixOf_eq_false_iff.mp this.1, isPrefixOf_eq_false_iff.mp this.2⟩
    · have := hall _ he1
      rw [← he2] at this
      simp only [nonOverlapping, Bool.and_eq_true, Bool.not_eq_true'] at this
      exact ⟨isPrefixOf_eq_false_iff.mp this.2, isPrefixOf_eq_false_iff.mp this.1⟩
    · exact ih hrest he1 he2 hne

/-- A placeholder determines its original within a well-formed pair list. -/
theorem pairsOK_fun {E : List (Str × Str)} (hE : pairsOK E = true) {p a b : Str}
    (h1 : (p, a) ∈ E) (h2 : (p, b) ∈ E) : a = b := by
  have hpw := pairsOK_pairwise hE
  clear hE
  induction E with
  | nil => exact absurd h1 (List.not_mem_nil _)
  | cons e rest ih =>
    unfold pairwiseNonOverlap at hpw
    simp only [Bool.and_eq_true, List.all_eq_true] at hpw
    obtain ⟨hall, hrest⟩ := hpw
    rcases List.mem_cons.mp h1 with he1 | he1 <;> rcases List.mem_cons.mp h2 with he2 | he2
    · exact congrArg Prod.snd (he1.trans he2.symm)
    · have := hall _ he2
      rw [← he1] at this
      simp only [nonOverlapping, Bool.and_eq_true, Bool.not_eq_true'] at this
      exact absurd (List.prefix_refl p) (isPrefixOf_eq_false_iff.mp this.1)
    · have := hall _ he1
      rw [← he2] at this
      simp only [nonOverlapping, Bool.and_eq_true, Bool.not_eq_true'] at this
      exact absurd (List.prefix_refl p) (isPrefixOf_eq_false_iff.mp this.1)
    · exact ih he1 he2 hrest

/-- No recorded original can start strictly inside a recorded placeholder. -/
theorem pairsOK_cleanFor {E : List (Str × Str)} (hE : pairsOK E = true) {p o q r : Str}
    (h1 : (p, o) ∈ E) (h2 : (q, r) ∈ E) :
    ∀ j, 0 < j → j < q.length → ¬ (q.drop j) <+: o ∧ ¬ o <+: (q.drop j) := by
  have h3 : E.all (fun e => E.all (fun e2 => cleanFor e.2 e2.1)) = true := by
    unfold pairsOK at hE
    simp only [Bool.and_eq_true] at hE
    exact hE.2
  have h4 := List.all_eq_true.mp (List.all_eq_true.mp h3 _ h1) _ h2
  intro j hj hjq
  unfold cleanFor at h4
  have h5 := List.all_eq_true.mp h4 j (List.mem_range.mpr hjq)
  simp only [Bool.or_eq_true, beq_iff_eq, Bool.and_eq_true, Bool.not_eq_true'] at h5
  rcases h5 with h5 | h5
  · omega
  · exact ⟨isPrefixOf_eq_false_iff.mp h5.1, isPrefixOf_eq_false_iff.mp h5.2⟩

/-! ## Occurrence analysis over chunk lists -/

/-- A nonempty bracket-free string cannot occur starting at a placeholder. -/
theorem orig_not_into_ph {o : Str} (hone : o ≠ []) (hbr : '[' ∉ o) {t : Str} (_hnot : '[' ∉ t)
    {Y : Str} (h : o <+: ('[' :: t) ++ Y) : False := by
  rcases prefix_append_cases h with h1 | h1
  · cases o with
    | nil => exact hone rfl
    | cons c ot =>
      rw [List.cons_prefix_cons] at h1
      exact hbr (h1.1 ▸ List.mem_cons_self c ot)
  · exact hbr (h1.subset (List.mem_cons_self '[' t))

/-- A bracket-headed string cannot occur starting strictly inside the
bracket-free tail of a placeholder. -/
theorem ph_not_inside_tail {t : Str} (hnot : '[' ∉ t) {pt : Str} {Y : Str}
    (j : Nat) (hj : j < t.length) (h : ('[' :: pt) <+: (t.drop j ++ Y)) : False := by
  have hd : t.drop j = t[j] :: t.drop (j + 1) := List.drop_eq_getElem_cons hj
  rcases prefix_append_cases h with h1 | h1
  · rw [hd, List.cons_prefix_cons] at h1
    have hm : t[j] ∈ t := List.getElem_mem hj
    rw [← h1.1] at hm
    exact hnot hm
  · rw [hd, List.cons_prefix_cons] at h1
    have hm : t[j] ∈ t := List.getElem_mem hj
    rw [h1.1] at hm
    exact hnot hm

/-- A prefix occurrence of a recorded original in a well-formed chunk list can
be split off: it consists purely of original characters. -/
theorem consume_chunks {E : List (Str × Str)} (hE : pairsOK E = true) :
    ∀ cs o, ChunksOK E cs → o ≠ [] → '[' ∉ o → o <+: render cs →
      ∃ cs', render cs = o ++ render cs' ∧ undoChunks cs = o ++ undoChunks cs' ∧
        ChunksOK E cs' ∧ (∀ p r, Chunk.ph p r ∈ cs' → Chunk.ph p r ∈ cs) := by
  intro cs
  induction cs with
  | nil =>
    intro o _ ho _ hp
    rw [render_nil] at hp
    exact absurd (List.prefix_nil.mp hp) ho
  | cons ck rest ih =>
    intro o hOK ho hbr hp
    obtain ⟨hOKhd, hOKrest⟩ := chunksOK_cons.mp hOK
    cases ck with
    | ch c =>
      cases o with
      | nil => exact absurd rfl ho
      | cons o0 ot =>
        rw [render_cons_ch, List.cons_prefix_cons] at hp
        obtain ⟨rfl, hp'⟩ := hp
        by_cases hot : ot = []
        · subst hot
          exact ⟨rest, by simp, by simp, hOKrest, fun p r h => List.mem_cons_of_mem _ h⟩
        · have hbr' : '[' ∉ ot := fun h => hbr (List.mem_cons_of_mem _ h)
          obtain ⟨cs', h1, h2, h3, h4⟩ := ih ot hOKrest hot hbr' hp'
          exact ⟨cs', by simp [h1], by simp [h2], h3,
            fun p r h => List.mem_cons_of_mem _ (h4 p r h)⟩
    | ph q r =>
      have hq : (q, r) ∈ E := hOKhd
      obtain ⟨⟨t, hqt, hnot⟩, _, _⟩ := pairsOK_mem hE hq
      rw [render_cons_ph, hqt] at hp
      exact (orig_not_into_ph ho hbr hnot hp).elim

/-- Replacing the first occurrence of a recorded original by its placeholder
maps well-formed chunk lists to well-formed chunk lists, preserving the
restored text.  The resulting list's placeholders are the old ones plus
possibly the new pair. -/
theorem replaceFirst_chunks {E : List (Str × Str)} (hE : pairsOK E = true) {p o : Str}
    (hpo : (p, o) ∈ E) :
    ∀ cs, ChunksOK E cs →
      ∃ cs', render cs' = replaceFirst (render cs) o p ∧
        undoChunks cs' = undoChunks cs ∧ ChunksOK E cs' ∧
        (∀ q r, Chunk.ph q r ∈ cs' → Chunk.ph q r ∈ cs ∨ (q = p ∧ r = o)) := by
  obtain ⟨hpbr, ho, hobr⟩ := pairsOK_mem hE hpo
  intro cs
  induction cs with
  | nil =>
    intro _
    refine ⟨[], ?_, rfl, fun c h => absurd h (List.not_mem_nil c),
      fun q r h => absurd h (List.not_mem_nil _)⟩
    simp [render_nil, replaceFirst, ho]
  | cons ck rest ih =>
    intro hOK
    obtain ⟨hOKhd, hOKrest⟩ := chunksOK_cons.mp hOK
    cases ck with
    | ch c =>
      by_cases hocc : o <+: (c :: render rest)
      · obtain ⟨cs_mid, h1, h2, h3, h4⟩ :=
          consume_chunks hE (Chunk.ch c :: rest) o hOK ho hobr
            (by rw [render_cons_ch]; exact hocc)
        have hb : o.isPrefixOf (c :: render rest) = true :=
          List.isPrefixOf_iff_prefix.mpr hocc
        have hrf : replaceFirst (c :: render rest) o p
            = p ++ (c :: render rest).drop o.length := by
          simp only [replaceFirst, hb, if_true]
        have hdrop : (c :: render rest).drop o.length = render cs_mid := by
          have h1' : c :: render rest = o ++ render cs_mid := by simpa using h1
          rw [h1', List.drop_left]
        refine ⟨Chunk.ph p o :: cs_mid, ?_, ?_, ?_, ?_⟩
        · rw [render_cons_ph, render_cons_ch, hrf, hdrop]
        · rw [undoChunks_cons_ph]
          exact h2.symm
        · exact chunksOK_cons.mpr ⟨hpo, h3⟩
        · intro q r h
          rcases List.mem_cons.mp h with h | h
          · right
            injection h with hq hr
            exact ⟨hq, hr⟩
          · left
            exact h4 q r h
      · have hb : o.isPrefixOf (c :: render rest) = false := isPrefixOf_eq_false_iff.mpr hocc
        obtain ⟨cs', h1, h2, h3, h4⟩ := ih hOKrest
        refine ⟨Chunk.ch c :: cs', ?_, ?_, ?_, ?_⟩
        · rw [render_cons_ch, render_cons_ch]
          have hstep : replaceFirst (c :: render rest) o p
              = c :: replaceFirst (render rest) o p := by
            simp only [replaceFirst, hb, Bool.false_eq_true, if_false]
          rw [hstep, h1]
        · simp [h2]
        · exact chunksOK_cons.mpr ⟨hOKhd, h3⟩
        · intro q r h
          rcases List.mem_cons.mp h with h | h
          · simp at h
          · rcases h4 q r h with h | h
            · left; exact List.mem_cons_of_mem _ h
            · right; exact h
    | ph q r =>
      have hq : (q, r) ∈ E := hOKhd
      obtain ⟨⟨t, hqt, hnot⟩, _, _⟩ := pairsOK_mem hE hq
      have hclean := pairsOK_cleanFor hE hpo hq
      have hskip : replaceFirst (q ++ render rest) o p
          = q ++ replaceFirst (render rest) o p := by
        apply replaceFirst_append
        intro i hi hcon
        rcases Nat.eq_zero_or_pos i with rfl | hipos
        · rw [List.drop_zero] at hcon
          rw [hqt] at hcon
          exact orig_not_into_ph ho hobr hnot hcon
        · have hc := hclean i hipos hi
          rcases prefix_append_cases hcon with h | h
          · exact hc.2 h
          · exact hc.1 h
      obtain ⟨cs', h1, h2, h3, h4⟩ := ih hOKrest
      refine ⟨Chunk.ph q r :: cs', ?_, ?_, ?_, ?_⟩
      · rw [render_cons_ph, render_cons_ph, hskip, h1]
      · simp [h2]
      · exact chunksOK_cons.mpr ⟨hq, h3⟩
      · intro q' r' h
        rcases List.mem_cons.mp h with h | h
        · left
          rw [h]
          exact List.mem_cons_self _ _
        · rcases h4 q' r' h with h | h
          · left; exact List.mem_cons_of_mem _ h
          · right; exact h

/-- `replaceAll` with a recorded placeholder hits exactly the placeholder
chunks carrying it. -/
theorem replaceAll_chunks {E : List (Str × Str)} (hE : pairsOK E = true) {p o : Str}
    (hpo : (p, o) ∈ E) :
    ∀ cs, ChunksOK E cs → replaceAll (render cs) p o = render (replacePh p o cs) := by
  obtain ⟨⟨pt, hppt, hptnot⟩, ho, hobr⟩ := pairsOK_mem hE hpo
  have hpne : p ≠ [] := by rw [hppt]; exact List.cons_ne_nil _ _
  intro cs
  induction cs with
  | nil =>
    intro _
    rw [render_nil]
    exact replaceAll_nil hpne o
  | cons ck rest ih =>
    intro hOK
    obtain ⟨hOKhd, hOKrest⟩ := chunksOK_cons.mp hOK
    cases ck with
    | ch c =>
      have hnp : ¬ p <+: (c :: render rest) := by
        rw [hppt]
        intro h
        rw [List.cons_prefix_cons] at h
        exact hOKhd h.1.symm
      have hb : p.isPrefixOf (c :: render rest) = false := isPrefixOf_eq_false_iff.mpr hnp
      rw [render_cons_ch, replaceAll_cons_neg hpne hb, ih hOKrest]
      rfl
    | ph q r =>
      have hq : (q, r) ∈ E := hOKhd
      by_cases hqp : q = p
      · subst hqp
        have hro : r = o := pairsOK_fun hE hq hpo
        subst hro
        have hpre : q.isPrefixOf (q ++ render rest) = true :=
          List.isPrefixOf_iff_prefix.mpr (List.prefix_append q (render rest))
        rw [render_cons_ph]
        obtain ⟨q0, qt, hq0⟩ : ∃ q0 qt, q = q0 :: qt := by
          cases hcq : q with
          | nil => exact absurd hcq hpne
          | cons a b => exact ⟨a, b, rfl⟩
        have hform : q ++ render rest = q0 :: (qt ++ render rest) := by
          rw [hq0]; rfl
        rw [hform]
        have hpre2 : q.isPrefixOf (q0 :: (qt ++ render rest)) = true := by
          rw [← hform]; exact hpre
        rw [replaceAll_cons_pos hpne hpre2 r]
        have hdrop : (q0 :: (qt ++ render rest)).drop q.length = render rest := by
          rw [← hform, List.drop_left]
        rw [hdrop, ih hOKrest]
        have hrhs : replacePh q r (Chunk.ph q r :: rest)
            = r.map Chunk.ch ++ replacePh q r rest := by
          simp [replacePh]
        rw [hrhs, render_append, render_map_ch]
      · obtain ⟨⟨t, hqt, hqnot⟩, _, _⟩ := pairsOK_mem hE hq
        have hskip : replaceAll (q ++ render rest) p o
            = q ++ replaceAll (render rest) p o := by
          apply replaceAll_append hpne
          intro i hi hcon
          rcases Nat.eq_zero_or_pos i with rfl | hipos
          · rw [List.drop_zero] at hcon
            have hnov := pairwiseNonOverlap_mem (pairsOK_pairwise hE) hpo hq
              (fun h => hqp h.symm)
            rcases prefix_append_cases hcon with h | h
            · exact hnov.1 h
            · exact hnov.2 h
          · rw [hqt] at hcon hi
            have hj : i - 1 < t.length := by
              rw [List.length_cons] at hi
              omega
            have hdt : ('[' :: t).drop i = t.drop (i - 1) := by
              obtain ⟨i', rfl⟩ : ∃ i', i = i' + 1 := ⟨i - 1, by omega⟩
              simp
            rw [hdt, hppt] at hcon
            exact ph_not_inside_tail hqnot (i - 1) hj hcon
        rw [render_cons_ph, hskip, ih hOKrest]
        have hrhs : replacePh p o (Chunk.ph q r :: rest)
            = Chunk.ph q r :: replacePh p o rest := by
          simp [replacePh, hqp]
        rw [hrhs, render_cons_ph]

/-- `replacePh` preserves the restored text. -/
theorem undoChunks_replacePh {E : List (Str × Str)} (hE : pairsOK E = true) {p o : Str}
    (hpo : (p, o) ∈ E) :
    ∀ cs, ChunksOK E cs → undoChunks (replacePh p o cs) = undoChunks cs := by
  intro cs
  induction cs with
  | nil => intro _; rfl
  | cons ck rest ih =>
    intro hOK
    obtain ⟨hOKhd, hOKrest⟩ := chunksOK_cons.mp hOK
    cases ck with
    | ch c => simp [replacePh, ih hOKrest]
    | ph q r =>
      by_cases hqp : q = p
      · subst hqp
        have hro : r = o := pairsOK_fun hE hOKhd hpo
        subst hro
        simp [replacePh, undoChunks_append, undoChunks_map_ch, ih hOKrest]
      · simp [replacePh, hqp, ih hOKrest]

/-- `replacePh` preserves chunk well-formedness. -/
theorem chunksOK_replacePh {E : List (Str × Str)} (hE : pairsOK E = true) {p o : Str}
    (hpo : (p, o) ∈ E) :
    ∀ cs, ChunksOK E cs → ChunksOK E (replacePh p o cs) := by
  obtain ⟨_, _, hobr⟩ := pairsOK_mem hE hpo
  intro cs
  induction cs with
  | nil => intro _; exact fun c h => absurd h (List.not_mem_nil c)
  | cons ck rest ih =>
    intro hOK
    obtain ⟨hOKhd, hOKrest⟩ := chunksOK_cons.mp hOK
    cases ck with
    | ch c =>
      exact chunksOK_cons.mpr ⟨hOKhd, ih hOKrest⟩
    | ph q r =>
      intro ck' hck'
      rw [replacePh] at hck'
      rcases List.mem_append.mp hck' with h | h
      · by_cases hqp : q = p
        · rw [if_pos hqp] at h
          obtain ⟨x, hx, rfl⟩ := List.mem_map.mp h
          exact fun hc => hobr (hc ▸ hx)
        · rw [if_neg hqp] at h
          rcases List.mem_singleton.mp h with rfl
          exact hOKhd
      · exact ih hOKrest ck' h

/-- Placeholders surviving `replacePh` are the old ones with a different key. -/
theorem ph_mem_replacePh {p o : Str} :
    ∀ cs q r, Chunk.ph q r ∈ replacePh p o cs → Chunk.ph q r ∈ cs ∧ q ≠ p := by
  intro cs
  induction cs with
  | nil => intro q r h; exact absurd h (List.not_mem_nil _)
  | cons ck rest ih =>
    intro q r h
    cases ck with
    | ch c =>
      rw [replacePh] at h
      rcases List.mem_cons.mp h with h | h
      · simp at h
      · obtain ⟨h1, h2⟩ := ih q r h
        exact ⟨List.mem_cons_of_mem _ h1, h2⟩
    | ph q' r' =>
      rw [replacePh] at h
      rcases List.mem_append.mp h with h | h
      · by_cases hqp : q' = p
        · rw [if_pos hqp] at h
          obtain ⟨x, _, hx⟩ := List.mem_map.mp h
          exact absurd hx (by simp)
        · rw [if_neg hqp] at h
          rcases List.mem_singleton.mp h with h
          injection h with e1 e2
          subst e1; subst e2
          exact ⟨List.mem_cons_self _ _, hqp⟩
      · obtain ⟨h1, h2⟩ := ih q r h
        exact ⟨List.mem_cons_of_mem _ h1, h2⟩

/-- A chunk list without placeholders renders to its own restored text. -/
theorem render_eq_undoChunks_of_no_ph :
    ∀ cs : List Chunk, (∀ q r, Chunk.ph q r ∉ cs) → render cs = undoChunks cs := by
  intro cs
  induction cs with
  | nil => intro _; rfl
  | cons ck rest ih =>
    intro h
    cases ck with
    | ch c =>
      rw [render_cons_ch, undoChunks_cons_ch, ih]
      intro q r hm
      exact h q r (List.mem_cons_of_mem _ hm)
    | ph q r =>
      exact absurd (List.mem_cons_self _ _) (h q r)

/-- Folding `replaceAll` over a table whose keys cover every placeholder of a
well-formed chunk list restores the text the chunks denote. -/
theorem dean_chunks {E : List (Str × Str)} (hE : pairsOK E = true) :
    ∀ table cs, ChunksOK E cs → (∀ e ∈ table, e ∈ E) →
      (∀ q r, Chunk.ph q r ∈ cs → q ∈ table.map Prod.fst) →
      deanonymize table (render cs) = undoChunks cs := by
  intro table
  induction table with
  | nil =>
    intro cs _ _ hcov
    rw [deanonymize]
    apply render_eq_undoChunks_of_no_ph
    intro q r hm
    have := hcov q r hm
    simp at this
  | cons e rest ih =>
    intro cs hOK htab hcov
    obtain ⟨p, o⟩ := e
    have hpo : (p, o) ∈ E := htab _ (List.mem_cons_self _ _)
    rw [deanonymize, replaceAll_chunks hE hpo cs hOK]
    have hres := ih (replacePh p o cs) (chunksOK_replacePh hE hpo cs hOK)
      (fun e' he' => htab e' (List.mem_cons_of_mem _ he'))
      (fun q r hm => by
        obtain ⟨h1, h2⟩ := ph_mem_replacePh cs q r hm
        have := hcov q r h1
        simp only [List.map_cons, List.mem_cons] at this
        rcases this with h | h
        · exact absurd h h2
        · exact h)
    rw [hres, undoChunks_replacePh hE hpo cs hOK]

/-- Entries of `dictInsert` are old entries or the new pair. -/
theorem dictInsert_mem {d : List (Str × Str)} {k v : Str} {e : Str × Str}
    (h : e ∈ dictInsert d k v) : e ∈ d ∨ e = (k, v) := by
  unfold dictInsert at h
  by_cases hc : (d.map Prod.fst).contains k = true
  · rw [if_pos hc] at h
    obtain ⟨e', he', heq⟩ := List.mem_map.mp h
    by_cases hek : e'.1 = k
    · rw [if_pos hek] at heq
      right; exact heq.symm
    · rw [if_neg hek] at heq
      left; exact heq ▸ he'
  · rw [if_neg hc] at h
    rcases List.mem_append.mp h with h | h
    · left; exact h
    · right; exact List.mem_singleton.mp h

/-- `dictInsert` keeps every existing key. -/
theorem dictInsert_keys_sup {d : List (Str × Str)} {k v : Str} :
    ∀ k', k' ∈ d.map Prod.fst → k' ∈ (dictInsert d k v).map Prod.fst := by
  intro k' hk'
  obtain ⟨e', he', hfst⟩ := List.mem_map.mp hk'
  unfold dictInsert
  by_cases hc : (d.map Prod.fst).contains k = true
  · rw [if_pos hc]
    by_cases hek : e'.1 = k
    · apply List.mem_map.mpr
      refine ⟨(k, v), List.mem_map.mpr ⟨e', he', ?_⟩, ?_⟩
      · rw [if_pos hek]
      · rw [← hfst, hek]
    · apply List.mem_map.mpr
      refine ⟨e', List.mem_map.mpr ⟨e', he', ?_⟩, hfst⟩
      rw [if_neg hek]
  · rw [if_neg hc]
    rw [List.map_append]
    exact List.mem_append_left _ hk'

/-- `dictInsert` makes the inserted key present. -/
theorem dictInsert_key_self {d : List (Str × Str)} {k v : Str} :
    k ∈ (dictInsert d k v).map Prod.fst := by
  unfold dictInsert
  by_cases hc : (d.map Prod.fst).contains k = true
  · rw [if_pos hc]
    have := List.elem_iff.mp hc
    obtain ⟨e', he', hfst⟩ := List.mem_map.mp this
    apply List.mem_map.mpr
    refine ⟨(k, v), List.mem_map.mpr ⟨e', he', ?_⟩, rfl⟩
    rw [if_pos hfst]
  · rw [if_neg hc]
    rw [List.map_append]
    exact List.mem_append_right _ (by simp)

/-- One regex type's match loop preserves the invariant, preserves the
restored text, and aligns its final counter with the pair computation. -/
theorem rxMatchLoop_ok {E : List (Str × Str)} (hE : pairsOK E = true) (ty ph : Str) :
    ∀ ms st cs ctr, st.counters = ctr → StOK E st cs →
      (∀ e ∈ (rxPairsMatches ty ph ms ctr).1, e ∈ E) →
      ∃ cs', StOK E (rxMatchLoop ty ph ms st) cs' ∧
        undoChunks cs' = undoChunks cs ∧
        (rxMatchLoop ty ph ms st).counters = (rxPairsMatches ty ph ms ctr).2 := by
  intro ms
  induction ms with
  | nil =>
    intro st cs ctr hctr hst _
    exact ⟨cs, hst, rfl, by rw [rxMatchLoop, rxPairsMatches]; exact hctr⟩
  | cons o ms ih =>
    intro st cs ctr hctr hst hmem
    obtain ⟨hanon, hchunks, htab, hcov⟩ := hst
    have hpair : (ph ++ natStr ((bump ctr ty) ty), o) ∈ E := by
      apply hmem
      rw [rxPairsMatches]
      exact List.mem_cons_self _ _
    obtain ⟨cs₁, h1, h2, h3, h4⟩ := replaceFirst_chunks hE hpair cs hchunks
    have hunfold : rxMatchLoop ty ph (o :: ms) st
        = rxMatchLoop ty ph ms
            { anonymized := replaceFirst st.anonymized o (ph ++ natStr ((bump st.counters ty) ty))
              lookup := dictInsert st.lookup (ph ++ natStr ((bump st.counters ty) ty)) o
              counters := bump st.counters ty } := rfl
    rw [hunfold, hctr]
    have hst' : StOK E
        { anonymized := replaceFirst st.anonymized o (ph ++ natStr ((bump ctr ty) ty))
          lookup := dictInsert st.lookup (ph ++ natStr ((bump ctr ty) ty)) o
          counters := bump ctr ty } cs₁ := by
      refine ⟨?_, h3, ?_, ?_⟩
      · show replaceFirst st.anonymized o (ph ++ natStr ((bump ctr ty) ty)) = render cs₁
        rw [hanon]
        exact h1.symm
      · intro e he
        rcases dictInsert_mem he with he | he
        · exact htab e he
        · rw [he]; exact hpair
      · intro q r hqr
        rcases h4 q r hqr with h | h
        · exact dictInsert_keys_sup q (hcov q r h)
        · rw [h.1]
          exact dictInsert_key_self
    have hmem' : ∀ e ∈ (rxPairsMatches ty ph ms (bump ctr ty)).1, e ∈ E := by
      intro e he
      apply hmem
      rw [rxPairsMatches]
      exact List.mem_cons_of_mem _ he
    obtain ⟨cs', hst'', hundo, hctr'⟩ := ih _ cs₁ (bump ctr ty) rfl hst' hmem'
    refine ⟨cs', hst'', hundo.trans h2, ?_⟩
    rw [hctr']
    rw [rxPairsMatches]

/-- The whole regex pass preserves the invariant and the restored text, with
counters aligned to the pair computation. -/
theorem rxLoop_ok {E : List (Str × Str)} (hE : pairsOK E = true)
    (fd : Str → Str → List Str) (text : Str) :
    ∀ cfg st cs ctr, st.counters = ctr → StOK E st cs →
      (∀ e ∈ (rxPairs fd text cfg ctr).1, e ∈ E) →
      ∃ cs', StOK E (rxLoop fd text cfg st) cs' ∧
        undoChunks cs' = undoChunks cs ∧
        (rxLoop fd text cfg st).counters = (rxPairs fd text cfg ctr).2 := by
  intro cfg
  induction cfg with
  | nil =>
    intro st cs ctr hctr hst _
    exact ⟨cs, hst, rfl, by rw [rxLoop, rxPairs]; exact hctr⟩
  | cons entry rest ih =>
    intro st cs ctr hctr hst hmem
    obtain ⟨ty, pat, ph⟩ := entry
    have hmem1 : ∀ e ∈ (rxPairsMatches ty ph (fd pat text) ctr).1, e ∈ E := by
      intro e he
      apply hmem
      rw [rxPairs]
      exact List.mem_append_left _ he
    obtain ⟨cs₁, hst₁, hundo₁, hctr₁⟩ :=
      rxMatchLoop_ok hE ty ph (fd pat text) st cs ctr hctr hst hmem1
    have hmem2 : ∀ e ∈ (rxPairs fd text rest ((rxPairsMatches ty ph (fd pat text) ctr).2)).1,
        e ∈ E := by
      intro e he
      apply hmem
      rw [rxPairs]
      exact List.mem_append_right _ he
    obtain ⟨cs', hst', hundo', hctr'⟩ :=
      ih (rxMatchLoop ty ph (fd pat text) st) cs₁ _ hctr₁ hst₁ hmem2
    refine ⟨cs', ?_, hundo'.trans hundo₁, ?_⟩
    · rw [rxLoop]
      exact hst'
    · rw [rxLoop, rxPairs]
      exact hctr'

/-- The entity/proper-noun pass preserves the invariant and the restored
text. -/
theorem entLoop_ok {E : List (Str × Str)} (hE : pairsOK E = true) :
    ∀ cands st cs ctr, st.counters = ctr → StOK E st cs →
      (∀ e ∈ (entPairs cands ctr).1, e ∈ E) →
      ∃ cs', StOK E (entLoop cands st) cs' ∧ undoChunks cs' = undoChunks cs := by
  intro cands
  induction cands with
  | nil =>
    intro st cs ctr _ hst _
    exact ⟨cs, hst, rfl⟩
  | cons cand rest ih =>
    intro st cs ctr hctr hst hmem
    obtain ⟨otext, label⟩ := cand
    by_cases hlab : label ∈ allowedLabels
    · have hpair : ('[' :: (label ++ natStr ((bump ctr label) label) ++ [']']), otext) ∈ E := by
        apply hmem
        rw [entPairs, if_pos hlab]
        exact List.mem_cons_self _ _
      have hmem' : ∀ e ∈ (entPairs rest (bump ctr label)).1, e ∈ E := by
        intro e he
        apply hmem
        rw [entPairs, if_pos hlab]
        exact List.mem_cons_of_mem _ he
      obtain ⟨hanon, hchunks, htab, hcov⟩ := hst
      by_cases hocc : containsSub st.anonymized otext = true
      · have hunfold : entLoop ((otext, label) :: rest) st
            = entLoop rest
                { anonymized := replaceFirst st.anonymized otext
                    ('[' :: (label ++ natStr ((bump st.counters label) label) ++ [']']))
                  lookup := dictInsert st.lookup
                    ('[' :: (label ++ natStr ((bump st.counters label) label) ++ [']'])) otext
                  counters := bump st.counters label } := by
          rw [entLoop, if_pos hlab, if_pos hocc]
        rw [hunfold, hctr]
        obtain ⟨cs₁, h1, h2, h3, h4⟩ := replaceFirst_chunks hE hpair cs hchunks
        have hst' : StOK E
            { anonymized := replaceFirst st.anonymized otext
                ('[' :: (label ++ natStr ((bump ctr label) label) ++ [']']))
              lookup := dictInsert st.lookup
                ('[' :: (label ++ natStr ((bump ctr label) label) ++ [']'])) otext
              counters := bump ctr label } cs₁ := by
          refine ⟨?_, h3, ?_, ?_⟩
          · show replaceFirst st.anonymized otext
                ('[' :: (label ++ natStr ((bump ctr label) label) ++ [']'])) = render cs₁
            rw [hanon]
            exact h1.symm
          · intro e he
            rcases dictInsert_mem he with he | he
            · exact htab e he
            · rw [he]; exact hpair
          · intro q r hqr
            rcases h4 q r hqr with h | h
            · exact dictInsert_keys_sup q (hcov q r h)
            · rw [h.1]
              exact dictInsert_key_self
        obtain ⟨cs', hst'', hundo⟩ := ih _ cs₁ (bump ctr label) rfl hst' hmem'
        exact ⟨cs', hst'', hundo.trans h2⟩
      · have hunfold : entLoop ((otext, label) :: rest) st
            = entLoop rest { st with counters := bump st.counters label } := by
          rw [entLoop, if_pos hlab, if_neg hocc]
        obtain ⟨cs', hst'', hundo⟩ := ih { st with counters := bump st.counters label } cs
          (bump ctr label) (by rw [hctr]) ⟨hanon, hchunks, htab, hcov⟩ hmem'
        rw [hunfold]
        exact ⟨cs', hst'', hundo⟩
    · have hunfold : entLoop ((otext, label) :: rest) st = entLoop rest st := by
        rw [entLoop, if_neg hlab]
      have hmem' : ∀ e ∈ (entPairs rest ctr).1, e ∈ E := by
        intro e he
        apply hmem
        rw [entPairs, if_neg hlab]
        exact he
      rw [hunfold]
      exact ih st cs ctr hctr hst hmem'

/-- C1 (amended round trip): if the original text contains no `[`, and the
(placeholder, original) pairs the run synthesizes are well-formed —
bracket-headed placeholders, pairwise prefix-free (so no label count reaches
the placeholder-collision threshold), with nonempty bracket-free originals
none of which can start inside any synthesized placeholder — then
deanonymizing the anonymizer's output with its lookup table restores the
original text exactly, for every configuration and every oracle behaviour. -/
theorem anonymize_deanonymize_eq {fd : Str → Str → List Str}
    {nE nT : Str → List (Str × Str)} {text : Str} {cfg : List (Str × Str × Str)}
    (hT : '[' ∉ text)
    (hE : pairsOK (runPairs fd nE nT text cfg) = true) :
    deanonymize (anonymize fd nE nT text cfg).2 (anonymize fd nE nT text cfg).1 = text := by
  have hst0 : StOK (runPairs fd nE nT text cfg) ⟨text, [], fun _ => 0⟩ (text.map Chunk.ch) := by
    refine ⟨(render_map_ch text).symm, ?_, ?_, ?_⟩
    · intro c hc
      obtain ⟨x, hx, rfl⟩ := List.mem_map.mp hc
      exact fun he => hT (he ▸ hx)
    · intro e he
      exact absurd he (List.not_mem_nil e)
    · intro q r hqr
      obtain ⟨x, _, hx⟩ := List.mem_map.mp hqr
      exact absurd hx (by simp)
  have hmem1 : ∀ e ∈ (rxPairs fd text cfg (fun _ => 0)).1,
      e ∈ runPairs fd nE nT text cfg := by
    intro e he
    unfold runPairs
    exact List.mem_append_left _ he
  obtain ⟨cs₁, hst₁, hundo₁, hctr₁⟩ :=
    rxLoop_ok hE fd text cfg ⟨text, [], fun _ => 0⟩ (text.map Chunk.ch) (fun _ => 0) rfl
      hst0 hmem1
  have hmem2 : ∀ e ∈ (entPairs
      (sortCands (nE (rxLoop fd text cfg ⟨text, [], fun _ => 0⟩).anonymized ++
        propnCands (nT (rxLoop fd text cfg ⟨text, [], fun _ => 0⟩).anonymized)))
      ((rxPairs fd text cfg (fun _ => 0)).2)).1, e ∈ runPairs fd nE nT text cfg := by
    intro e he
    unfold runPairs
    exact List.mem_append_right _ he
  obtain ⟨cs₂, hst₂, hundo₂⟩ :=
    entLoop_ok hE
      (sortCands (nE (rxLoop fd text cfg ⟨text, [], fun _ => 0⟩).anonymized ++
        propnCands (nT (rxLoop fd text cfg ⟨text, [], fun _ => 0⟩).anonymized)))
      (rxLoop fd text cfg ⟨text, [], fun _ => 0⟩) cs₁
      ((rxPairs fd text cfg (fun _ => 0)).2) hctr₁ hst₁ hmem2
  obtain ⟨hanon₂, hchunks₂, htab₂, hcov₂⟩ := hst₂
  show deanonymize
      (entLoop
        (sortCands (nE (rxLoop fd text cfg ⟨text, [], fun _ => 0⟩).anonymized ++
          propnCands (nT (rxLoop fd text cfg ⟨text, [], fun _ => 0⟩).anonymized)))
        (rxLoop fd text cfg ⟨text, [], fun _ => 0⟩)).lookup
      (entLoop
        (sortCands (nE (rxLoop fd text cfg ⟨text, [], fun _ => 0⟩).anonymized ++
          propnCands (nT (rxLoop fd text cfg ⟨text, [], fun _ => 0⟩).anonymized)))
        (rxLoop fd text cfg ⟨text, [], fun _ => 0⟩)).anonymized = text
  rw [hanon₂, dean_chunks hE _ cs₂ hchunks₂ htab₂ hcov₂, hundo₂, hundo₁, undoChunks_map_ch]

/-- The inner match loop is the fold of `rxStep` over that type's matches. -/
theorem rxMatchLoop_eq_foldl (ty ph : Str) :
    ∀ ms st, rxMatchLoop ty ph ms st = (ms.map (fun m => (ty, m, ph))).foldl rxStep st := by
  intro ms
  induction ms with
  | nil => intro st; rfl
  | cons o ms ih =>
    intro st
    rw [rxMatchLoop, List.map_cons, List.foldl_cons, ← ih]
    rfl

/-- The regex pass is the fold of `rxStep` over the flattened work list. -/
theorem rxLoop_eq_foldl (fd : Str → Str → List Str) (text : Str) :
    ∀ cfg st, rxLoop fd text cfg st = (rxFlat fd text cfg).foldl rxStep st := by
  intro cfg
  induction cfg with
  | nil => intro st; rfl
  | cons e rest ih =>
    intro st
    obtain ⟨ty, pat, ph⟩ := e
    rw [rxLoop, ih]
    simp only [rxFlat, List.flatMap_cons, List.foldl_append]
    rw [← rxMatchLoop_eq_foldl]

/-! ## The longest-first sort: sortedness, stability, permutation -/

/-- `insertCand` permutes the element into the list. -/
theorem insertCand_perm (x : Str × Str) : ∀ l, List.Perm (insertCand x l) (x :: l) := by
  intro l
  induction l with
  | nil => exact List.Perm.refl _
  | cons y ys ih =>
    rw [insertCand]
    by_cases hle : y.1.length ≤ x.1.length
    · rw [if_pos hle]
    · rw [if_neg hle]
      exact (ih.cons y).trans (List.Perm.swap x y ys)

/-- Membership in an insertion. -/
theorem mem_insertCand {x z : Str × Str} {l : List (Str × Str)}
    (h : z ∈ insertCand x l) : z = x ∨ z ∈ l := by
  have := (insertCand_perm x l).mem_iff.mp h
  simpa using this

/-- `sortCands` permutes its input. -/
theorem sortCands_perm : ∀ l, List.Perm (sortCands l) l := by
  intro l
  induction l with
  | nil => exact List.Perm.refl _
  | cons x xs ih =>
    rw [sortCands]
    exact (insertCand_perm x (sortCands xs)).trans (ih.cons x)

/-- Insertion preserves the descending-length ordering. -/
theorem insertCand_pairwise {x : Str × Str} :
    ∀ {l}, List.Pairwise (fun a b : Str × Str => b.1.length ≤ a.1.length) l →
      List.Pairwise (fun a b : Str × Str => b.1.length ≤ a.1.length) (insertCand x l) := by
  intro l
  induction l with
  | nil => intro _; simp [insertCand]
  | cons y ys ih =>
    intro hp
    rw [List.pairwise_cons] at hp
    obtain ⟨hy, hys⟩ := hp
    rw [insertCand]
    by_cases hle : y.1.length ≤ x.1.length
    · rw [if_pos hle]
      constructor
      · intro z hz
        rcases List.mem_cons.mp hz with rfl | hz
        · exact hle
        · exact le_trans (hy z hz) hle
      · exact List.pairwise_cons.mpr ⟨hy, hys⟩
    · rw [if_neg hle]
      constructor
      · intro z hz
        rcases mem_insertCand hz with rfl | hz
        · omega
        · exact hy z hz
      · exact ih hys

/-- The sorted candidate list is ordered by descending text length. -/
theorem sortCands_sorted :
    ∀ l, List.Pairwise (fun a b : Str × Str => b.1.length ≤ a.1.length) (sortCands l) := by
  intro l
  induction l with
  | nil => simp [sortCands]
  | cons x xs ih =>
    rw [sortCands]
    exact insertCand_pairwise ih

/-- Filtering an insertion by an exact length. -/
theorem filter_insertCand (x : Str × Str) (n : Nat) :
    ∀ l, (insertCand x l).filter (fun c => c.1.length == n)
      = if x.1.length = n then x :: l.filter (fun c => c.1.length == n)
        else l.filter (fun c => c.1.length == n) := by
  intro l
  induction l with
  | nil =>
    by_cases h : x.1.length = n <;>
      simp [insertCand, List.filter_cons, beq_iff_eq, h]
  | cons y ys ih =>
    rw [insertCand]
    by_cases hle : y.1.length ≤ x.1.length
    · rw [if_pos hle]
      by_cases hx : x.1.length = n <;> simp [List.filter_cons, beq_iff_eq, hx]
    · rw [if_neg hle]
      by_cases hy : y.1.length = n
      · have hx : x.1.length ≠ n := by omega
        simp [List.filter_cons, beq_iff_eq, hy, hx, ih]
      · by_cases hx : x.1.length = n <;>
          simp [List.filter_cons, beq_iff_eq, hy, hx, ih]

/-- Stability: candidates of any fixed length appear in the sorted list in
their original relative order. -/
theorem sortCands_filter_len (n : Nat) :
    ∀ l, (sortCands l).filter (fun c => c.1.length == n)
      = l.filter (fun c => c.1.length == n) := by
  intro l
  induction l with
  | nil => rfl
  | cons x xs ih =>
    rw [sortCands, filter_insertCand]
    by_cases hx : x.1.length = n
    · rw [if_pos hx, ih, List.filter_cons, if_pos (by simpa using hx)]
    · rw [if_neg hx, ih, List.filter_cons, if_neg (by simpa using hx)]

/-! ## Key uniqueness in the lookup table -/

/-- `dictInsert` preserves key uniqueness. -/
theorem dictInsert_keys_nodup {d : List (Str × Str)} {k v : Str}
    (h : (d.map Prod.fst).Nodup) : ((dictInsert d k v).map Prod.fst).Nodup := by
  unfold dictInsert
  by_cases hc : (d.map Prod.fst).contains k = true
  · rw [if_pos hc]
    have : (d.map (fun e => if e.1 = k then (k, v) else e)).map Prod.fst = d.map Prod.fst := by
      rw [List.map_map]
      apply List.map_congr_left
      intro e _
      by_cases he : e.1 = k
      · simp [he]
      · simp [he]
    rw [this]
    exact h
  · rw [if_neg hc]
    rw [List.map_append]
    have hk : k ∉ d.map Prod.fst := by
      intro hm
      exact hc (List.elem_iff.mpr hm)
    simp only [List.map_cons, List.map_nil]
    exact List.Nodup.append h (List.nodup_singleton k)
      (fun a ha hb => hk (by rwa [List.mem_singleton.mp hb] at ha))

/-- The regex inner loop preserves key uniqueness. -/
theorem rxMatchLoop_keys_nodup (ty ph : Str) :
    ∀ ms st, ((st : AnonState).lookup.map Prod.fst).Nodup →
      ((rxMatchLoop ty ph ms st).lookup.map Prod.fst).Nodup := by
  intro ms
  induction ms with
  | nil => intro st h; exact h
  | cons o ms ih =>
    intro st h
    rw [rxMatchLoop]
    exact ih _ (dictInsert_keys_nodup h)

/-- The regex pass preserves key uniqueness. -/
theorem rxLoop_keys_nodup (fd : Str → Str → List Str) (text : Str) :
    ∀ cfg st, ((st : AnonState).lookup.map Prod.fst).Nodup →
      ((rxLoop fd text cfg st).lookup.map Prod.fst).Nodup := by
  intro cfg
  induction cfg with
  | nil => intro st h; exact h
  | cons e rest ih =>
    intro st h
    obtain ⟨ty, pat, ph⟩ := e
    rw [rxLoop]
    exact ih _ (rxMatchLoop_keys_nodup ty ph _ st h)

/-- The entity pass preserves key uniqueness. -/
theorem entLoop_keys_nodup :
    ∀ cands st, ((st : AnonState).lookup.map Prod.fst).Nodup →
      ((entLoop cands st).lookup.map Prod.fst).Nodup := by
  intro cands
  induction cands with
  | nil => intro st h; exact h
  | cons cand rest ih =>
    intro st h
    obtain ⟨otext, label⟩ := cand
    rw [entLoop]
    by_cases hlab : label ∈ allowedLabels
    · rw [if_pos hlab]
      by_cases hocc : containsSub st.anonymized otext = true
      · rw [if_pos hocc]
        exact ih _ (dictInsert_keys_nodup h)
      · rw [if_neg hocc]
        exact ih _ h
    · rw [if_neg hlab]
      exact ih st h

/-- The final lookup table of any run has pairwise-distinct keys. -/
theorem anonymize_keys_nodup (fd : Str → Str → List Str)
    (nE nT : Str → List (Str × Str)) (text : Str) (cfg : List (Str × Str × Str)) :
    (((anonymize fd nE nT text cfg).2).map Prod.fst).Nodup := by
  unfold anonymize
  apply entLoop_keys_nodup
  apply rxLoop_keys_nodup
  simp

/-! ## Claim theorems -/

/-- C1 counterexample: with the phone type followed by a type whose pattern
matches `1 1`, on the text `411-555-1234 1 1` every matched PII substring
occurs exactly once and every counter stays at 1 (single digits, far below
the collision threshold, as the resulting lookup table shows), yet the
second replacement's first-occurrence search hits the digit `1` of the
already-inserted placeholder `[PHONE]1`, and the round trip fails. -/
theorem roundtrip_counterexample :
    occurrencesCount exCtext (str "411-555-1234") = 1 ∧
    occurrencesCount exCtext (str "1 1") = 1 ∧
    (anonymize exCfinditer noNlp noNlp exCtext exCcfg).2
      = [(str "[PHONE]1", str "411-555-1234"), (str "[ONES]1", str "1 1")] ∧
    deanonymize (anonymize exCfinditer noNlp noNlp exCtext exCcfg).2
      (anonymize exCfinditer noNlp noNlp exCtext exCcfg).1 ≠ exCtext := by
  decide

/-- C1 witness: a run of the full source configuration on
`Reach a@b.com now` (with the email and website matches `re.finditer`
produces there) satisfies the amended hypotheses, and the round trip
restores the text — even though the website pass records a spurious
lookup entry for `b.com` without replacing anything. -/
theorem anonymize_deanonymize_eq_witness :
    ('[' ∉ exWtext) ∧
    pairsOK (runPairs exWfinditer noNlp noNlp exWtext pii_config) = true ∧
    deanonymize (anonymize exWfinditer noNlp noNlp exWtext pii_config).2
      (anonymize exWfinditer noNlp noNlp exWtext pii_config).1 = exWtext :=
  ⟨by decide, by decide, anonymize_deanonymize_eq (by decide) (by decide)⟩

/-- C2 (regex pass semantics): the regex pass equals the fold of the
spec-described step — bump the type's counter, concatenate placeholder and
counter, replace the first remaining occurrence in the working text, record
the pair — over the flattened work list, which pairs each config entry (in
insertion order) with its matches against the pristine input text; and the
whole anonymizer is that fold followed by the entity pass on its output. -/
theorem regex_pass_semantics (fd : Str → Str → List Str) (nE nT : Str → List (Str × Str))
    (text : Str) (cfg : List (Str × Str × Str)) (st : AnonState) :
    rxLoop fd text cfg st = (rxFlat fd text cfg).foldl rxStep st ∧
    anonymize fd nE nT text cfg
      = ((entLoop (sortCands
            (nE ((rxFlat fd text cfg).foldl rxStep ⟨text, [], fun _ => 0⟩).anonymized ++
              propnCands (nT ((rxFlat fd text cfg).foldl rxStep ⟨text, [], fun _ => 0⟩).anonymized)))
          ((rxFlat fd text cfg).foldl rxStep ⟨text, [], fun _ => 0⟩)).anonymized,
        (entLoop (sortCands
            (nE ((rxFlat fd text cfg).foldl rxStep ⟨text, [], fun _ => 0⟩).anonymized ++
              propnCands (nT ((rxFlat fd text cfg).foldl rxStep ⟨text, [], fun _ => 0⟩).anonymized)))
          ((rxFlat fd text cfg).foldl rxStep ⟨text, [], fun _ => 0⟩)).lookup) := by
  constructor
  · exact rxLoop_eq_foldl fd text cfg st
  · simp only [anonymize]
    rw [rxLoop_eq_foldl]

/-- C3 counterexample: with PERSON spans `Bob Smith`, `Bob`, `Al` (sorted
longest first), the skipped candidate `Bob` — absent after `Bob Smith` was
replaced — still consumes counter value 2, so `Al` becomes `[PERSON3]` and
no `[PERSON2]` key exists; under the claim's semantics `Al` would have
received `[PERSON2]`. -/
theorem entity_skip_counterexample :
    anonymize noMatches exSkipEnts noNlp exSkipText []
      = (str "[PERSON1] met [PERSON3]",
         [(str "[PERSON1]", str "Bob Smith"), (str "[PERSON3]", str "Al")]) := by
  decide

/-- C3 (amended): for an allowed-label candidate, when its text is absent
from the working text the candidate is skipped with no replacement and no
lookup entry but the label's counter IS incremented (the increment precedes
the presence check); when present, replacement and recording use the
already-incremented counter. -/
theorem entity_skip_semantics (otext label : Str) (rest : List (Str × Str)) (st : AnonState)
    (hlab : label ∈ allowedLabels) :
    (containsSub st.anonymized otext = false →
      entLoop ((otext, label) :: rest) st
        = entLoop rest { st with counters := bump st.counters label }) ∧
    (containsSub st.anonymized otext = true →
      entLoop ((otext, label) :: rest) st
        = entLoop rest
            { anonymized := replaceFirst st.anonymized otext
                ('[' :: (label ++ natStr ((bump st.counters label) label) ++ [']']))
              lookup := dictInsert st.lookup
                ('[' :: (label ++ natStr ((bump st.counters label) label) ++ [']'])) otext
              counters := bump st.counters label }) ∧
    (bump st.counters label) label = st.counters label + 1 :=
  ⟨fun h => by rw [entLoop, if_pos hlab, if_neg (by simp [h])],
   fun h => by rw [entLoop, if_pos hlab, if_pos h],
   by simp [bump]⟩

/-- C3 witness: the skip branch at a concrete state. -/
theorem entity_skip_semantics_witness :
    entLoop [(str "Bob", str "PERSON")] ⟨str "x", [], fun _ => 0⟩
      = entLoop [] { (⟨str "x", [], fun _ => 0⟩ : AnonState) with
          counters := bump (fun _ => 0) (str "PERSON") } :=
  (entity_skip_semantics (str "Bob") (str "PERSON") [] ⟨str "x", [], fun _ => 0⟩
    (by decide)).1 (by decide)

/-- C4 (longest-first ordering): the combined candidate list is sorted by
descending text length; candidates of equal length keep their original
relative order (stability); the sort is a permutation; and on the source's
own `Paul Haggerty` example the output contains exactly one placeholder for
the whole phrase, with nothing left for `Paul` or `Haggerty`. -/
theorem longest_first_ordering (l : List (Str × Str)) (n : Nat) :
    List.Pairwise (fun a b : Str × Str => b.1.length ≤ a.1.length) (sortCands l) ∧
    (sortCands l).filter (fun c => c.1.length == n) = l.filter (fun c => c.1.length == n) ∧
    List.Perm (sortCands l) l ∧
    anonymize noMatches exPaulEnts exPaulTokens exPaulText []
      = (str "Sincerely, [PERSON1]", [(str "[PERSON1]", str "Paul Haggerty")]) :=
  ⟨sortCands_sorted l, sortCands_filter_len n l, sortCands_perm l, by decide⟩

/-- Folding `replaceAll` over a table in which no placeholder occurs in the
text leaves the text unchanged. -/
theorem deanonymize_of_no_occ :
    ∀ (L : List (Str × Str)) (t : Str),
      (∀ e ∈ L, containsSub t e.1 = false) → deanonymize L t = t := by
  intro L
  induction L with
  | nil => intro t _; rfl
  | cons e rest ih =>
    intro t h
    obtain ⟨p, o⟩ := e
    rw [deanonymize, replaceAll_of_not_contains (h (p, o) (List.mem_cons_self _ _)) o]
    exact ih t (fun e' he' => h e' (List.mem_cons_of_mem _ he'))

/-- C5 (deanonymize replaces all occurrences): `deanonymize` folds
`replaceAll` over the table pairs in order, and `replaceAll` — unlike
`replaceFirst`, whose match branch stops after one replacement — continues
scanning past each replaced occurrence, replacing every one. -/
theorem deanonymize_replaces_all (L : List (Str × Str)) (t p o s : Str) (c : Char) (cs : Str) :
    deanonymize [] t = t ∧
    deanonymize ((p, o) :: L) t = deanonymize L (replaceAll t p o) ∧
    (containsSub s p = false → replaceAll s p o = s) ∧
    (p ≠ [] → p.isPrefixOf (c :: cs) = true →
      replaceAll (c :: cs) p o = o ++ replaceAll ((c :: cs).drop p.length) p o) ∧
    (p ≠ [] → p.isPrefixOf (c :: cs) = false →
      replaceAll (c :: cs) p o = c :: replaceAll cs p o) ∧
    (p.isPrefixOf (c :: cs) = true →
      replaceFirst (c :: cs) p o = o ++ (c :: cs).drop p.length) :=
  ⟨rfl, rfl, fun h => replaceAll_of_not_contains h o,
   fun hne h => replaceAll_cons_pos hne h o,
   fun hne h => replaceAll_cons_neg hne h o,
   fun h => by simp only [replaceFirst, h, if_true]⟩

/-- C5 witness: the match recurrence and the no-occurrence case at concrete
strings. -/
theorem deanonymize_replaces_all_witness :
    replaceAll ('[' :: str "A]1x[A]1") (str "[A]1") (str "y")
      = str "y" ++ replaceAll (('[' :: str "A]1x[A]1").drop (str "[A]1").length)
          (str "[A]1") (str "y") ∧
    replaceAll (str "zzz") (str "[A]1") (str "y") = str "zzz" :=
  ⟨(deanonymize_replaces_all [] (str "u") (str "[A]1") (str "y") (str "zzz") '['
      (str "A]1x[A]1")).2.2.2.1 (by decide) (by decide),
   (deanonymize_replaces_all [] (str "u") (str "[A]1") (str "y") (str "zzz") '['
      (str "A]1x[A]1")).2.2.1 (by decide)⟩

/-- `findVal` on a cons whose head key matches. -/
theorem findVal_cons_pos {e : Str × Str} {rest : List (Str × Str)} {k : Str} (h : e.1 = k) :
    findVal (e :: rest) k = some e.2 := by
  simp [findVal, List.find?_cons, h]

/-- `findVal` on a cons whose head key differs. -/
theorem findVal_cons_neg {e : Str × Str} {rest : List (Str × Str)} {k : Str} (h : e.1 ≠ k) :
    findVal (e :: rest) k = findVal rest k := by
  simp [findVal, List.find?_cons, h]

/-- Overwriting an existing key leaves the new value at the key. -/
theorem findVal_overwrite (k v : Str) :
    ∀ d : List (Str × Str), k ∈ d.map Prod.fst →
      findVal (d.map (fun e => if e.1 = k then (k, v) else e)) k = some v := by
  intro d
  induction d with
  | nil => intro hmem; simp at hmem
  | cons e rest ih =>
    intro hmem
    rw [List.map_cons]
    by_cases hek : e.1 = k
    · rw [if_pos hek]
      exact findVal_cons_pos rfl
    · rw [if_neg hek, findVal_cons_neg hek]
      apply ih
      rw [List.map_cons] at hmem
      rcases List.mem_cons.mp hmem with h | h
      · exact absurd h.symm hek
      · exact h

/-- Appending a fresh key makes its value retrievable. -/
theorem findVal_append_new (k v : Str) :
    ∀ d : List (Str × Str), k ∉ d.map Prod.fst →
      findVal (d ++ [(k, v)]) k = some v := by
  intro d
  induction d with
  | nil => intro _; exact findVal_cons_pos rfl
  | cons e rest ih =>
    intro hnmem
    have hek : e.1 ≠ k := fun h => hnmem (by simp [h])
    rw [List.cons_append, findVal_cons_neg hek]
    exact ih (fun hm => hnmem (by rw [List.map_cons]; exact List.mem_cons_of_mem _ hm))

/-- After `d[k] = v`, looking up `k` yields `v` (last assignment wins). -/
theorem findVal_dictInsert_self (d : List (Str × Str)) (k v : Str) :
    findVal (dictInsert d k v) k = some v := by
  unfold dictInsert
  by_cases hc : (d.map Prod.fst).contains k = true
  · rw [if_pos hc]
    exact findVal_overwrite k v d (List.elem_iff.mp hc)
  · rw [if_neg hc]
    exact findVal_append_new k v d (fun hm => hc (List.elem_iff.mpr hm))

/-- Regex placeholders of one type with distinct counters are distinct. -/
theorem placeholder_counter_distinct {a b : Nat} (hab : a ≠ b) (ph : Str) :
    ph ++ natStr a ≠ ph ++ natStr b := by
  intro h
  exact hab (natStr_injective (List.append_cancel_left h))

/-- Entity placeholders of one label with distinct counters are distinct. -/
theorem entity_placeholder_distinct {a b : Nat} (hab : a ≠ b) (label : Str) :
    ('[' :: (label ++ natStr a ++ [']'])) ≠ ('[' :: (label ++ natStr b ++ [']'])) := by
  intro h
  have h1 : label ++ natStr a ++ [']'] = label ++ natStr b ++ [']'] := by
    injection h
  rw [List.append_assoc, List.append_assoc] at h1
  have h2 : natStr a ++ [']'] = natStr b ++ [']'] := List.append_cancel_left h1
  exact hab (natStr_injective (List.append_cancel_right h2))

/-- C6 counterexample: two config entries sharing the prefix `[X]` both
assign key `[X]1` — first to `aaa`, then to `bbb` — and the final table
retains the LAST-recorded original (`bbb`), not the first (`aaa`): Python
dict assignment overwrites. -/
theorem lookup_collision_counterexample :
    anonymize exColFd noNlp noNlp exColText exColCfg
      = (str "[X]1 [X]1", [(str "[X]1", str "bbb")]) ∧
    findVal [(str "[X]1", str "bbb")] (str "[X]1") ≠ some (str "aaa") := by
  decide

/-- C6 (amended): lookup-table keys are always pairwise distinct in the
final table (a dict has unique keys), and placeholders generated for one
label with distinct counter values never collide; but when two recordings do
share a key (e.g. shared placeholder prefixes), the table retains the
LAST-recorded original, since dict assignment overwrites. -/
theorem lookup_collision_amended (d : List (Str × Str)) (k v label phq : Str) (a b : Nat)
    (hab : a ≠ b) (fd : Str → Str → List Str) (nE nT : Str → List (Str × Str))
    (text : Str) (cfg : List (Str × Str × Str)) :
    findVal (dictInsert d k v) k = some v ∧
    phq ++ natStr a ≠ phq ++ natStr b ∧
    ('[' :: (label ++ natStr a ++ [']'])) ≠ ('[' :: (label ++ natStr b ++ [']'])) ∧
    (((anonymize fd nE nT text cfg).2).map Prod.fst).Nodup :=
  ⟨findVal_dictInsert_self d k v, placeholder_counter_distinct hab phq,
   entity_placeholder_distinct hab label, anonymize_keys_nodup fd nE nT text cfg⟩

/-- C6 witness: overwrite and distinctness at concrete values. -/
theorem lookup_collision_amended_witness :
    findVal (dictInsert [(str "k", str "x")] (str "k") (str "y")) (str "k") = some (str "y") ∧
    str "[PHONE]" ++ natStr 1 ≠ str "[PHONE]" ++ natStr 2 :=
  ⟨(lookup_collision_amended [(str "k", str "x")] (str "k") (str "y") (str "PERSON")
      (str "[PHONE]") 1 2 (by decide) noMatches noNlp noNlp (str "t") []).1,
   (lookup_collision_amended [(str "k", str "x")] (str "k") (str "y") (str "PERSON")
      (str "[PHONE]") 1 2 (by decide) noMatches noNlp noNlp (str "t") []).2.1⟩

/-- C7 counterexample: on `Reach a@b.com now` with the source's config, the
email fires first, yet the website pattern — scanned against the pristine
original text — still records the lookup entry `[WEBSITE]1 → b.com` (and its
counter reaches 1), contradicting the claim that no website lookup entry is
created for the domain fragment. -/
theorem regex_precedence_counterexample :
    findVal (anonymize exWfinditer noNlp noNlp exWtext pii_config).2 (str "[WEBSITE]1")
      = some (str "b.com") := by
  decide

/-- C7 (amended): the email placeholder is applied first per config order
and consumes the email substring, so the website match is NOT substituted
into the working text (`[WEBSITE]1` never appears there); but the website
counter still increments and a spurious lookup entry is recorded, because
the regex pass scans the pristine original and records unconditionally. -/
theorem regex_precedence_amended :
    anonymize exWfinditer noNlp noNlp exWtext pii_config
      = (str "Reach [EMAIL]1 now",
         [(str "[EMAIL]1", str "a@b.com"), (str "[WEBSITE]1", str "b.com")]) ∧
    containsSub (str "Reach [EMAIL]1 now") (str "[WEBSITE]1") = false := by
  decide

/-- C8 counterexample: anonymizing `a@b.com` while the NLP oracle tags the
placeholder `[EMAIL]1` itself as an ORG span yields the table
`{[EMAIL]1 → a@b.com, [ORG1] → [EMAIL]1}` and the text `[ORG1]`; the first
deanonymize pass reintroduces the placeholder `[EMAIL]1`, so a second
application changes the text again — deanonymize is not idempotent on this
run's own output. -/
theorem dean_idempotent_counterexample :
    deanonymize (anonymize exIdFd exIdEnts noNlp exIdText exIdCfg).2
        (deanonymize (anonymize exIdFd exIdEnts noNlp exIdText exIdCfg).2
          (anonymize exIdFd exIdEnts noNlp exIdText exIdCfg).1)
      ≠ deanonymize (anonymize exIdFd exIdEnts noNlp exIdText exIdCfg).2
          (anonymize exIdFd exIdEnts noNlp exIdText exIdCfg).1 := by
  decide

/-- C8 (amended): when no placeholder of the table occurs in the restored
text (the situation the claim's own justification assumes), the second
deanonymize application is a no-op. -/
theorem dean_idempotent_amended (L : List (Str × Str)) (t : Str)
    (h : ∀ e ∈ L, containsSub (deanonymize L t) e.1 = false) :
    deanonymize L (deanonymize L t) = deanonymize L t :=
  deanonymize_of_no_occ L (deanonymize L t) h

/-- C8 witness: idempotence at a concrete table and text. -/
theorem dean_idempotent_amended_witness :
    deanonymize [(str "[A]1", str "z")] (deanonymize [(str "[A]1", str "z")] (str "q[A]1"))
      = deanonymize [(str "[A]1", str "z")] (str "q[A]1") :=
  dean_idempotent_amended [(str "[A]1", str "z")] (str "q[A]1") (by decide)

/-- C9 (double-digit placeholder boundary): a run with ten distinct persons
produces `[PERSON10]` in the anonymized text, and deanonymization restores
the original exactly — replacing `[PERSON1]` performs no partial match
inside the literal text `[PERSON10]`, because the bracketed placeholder
`[PERSON1]` (ending in `]`) is not a substring of `[PERSON10]`. -/
theorem double_digit_boundary :
    containsSub (anonymize noMatches exTenEnts noNlp exTenText []).1 (str "[PERSON10]") = true ∧
    containsSub (str "[PERSON10]") (str "[PERSON1]") = false ∧
    deanonymize (anonymize noMatches exTenEnts noNlp exTenText []).2
      (anonymize noMatches exTenEnts noNlp exTenText []).1 = exTenText := by
  decide

/-- C10 (identity edge cases): deanonymize with an empty table returns the
text unchanged, and more generally it leaves any text unchanged when none of
the table's placeholders occurs in it. -/
theorem dean_identity_edges (t : Str) (L : List (Str × Str)) :
    deanonymize [] t = t ∧
    ((∀ e ∈ L, containsSub t e.1 = false) → deanonymize L t = t) :=
  ⟨rfl, fun h => deanonymize_of_no_occ L t h⟩

/-- C10 witness: the no-occurrence case at a concrete table and text. -/
theorem dean_identity_edges_witness :
    deanonymize [(str "[X]1", str "y")] (str "hello") = str "hello" :=
  (dean_identity_edges (str "hello") [(str "[X]1", str "y")]).2 (by decide)
